import Mathlib

/-!
Verification development for the cross-package nilability inference core
(`inference` package, file holding `InferredMap` and its operations).

The Go source is shallowly embedded: Go maps become association lists with
insert-overwrite semantics, the `sitesWithAssertions` edge sets become lists
of (site, trigger) pairs, and the recursive export selector is embedded with
an explicit fuel argument (the recursion in the source terminates because
the three mark sets grow monotonically; the fuel plays that role here and is
always chosen large enough, which the development proves).

Types that the source file references but does not define
(`primitiveSite`, `primitiveFullTrigger`, `ExplainedBool`,
`sitesWithAssertions`, `inferredValDiff`, `newPrimitiveSite`,
`annotation.Val`) are modelled from the spec; each such definition carries a
doc comment saying so.
-/

set_option maxHeartbeats 1000000

/-- Modelled from the spec: a `primitiveSite` identifies an annotatable
location (`key`), a `deep` bit distinguishing outer vs element nilability,
and an `exported` bit for source-level visibility. Two sites are equal iff
all three components are equal. -/
structure primitiveSite where
  key : Nat
  deep : Bool
  exported : Bool
deriving DecidableEq, Repr

/-- Modelled from the spec: a trigger assertion is opaque diagnostic
metadata; we model it as a bare identifier. -/
abbrev primitiveFullTrigger := Nat

/-- Modelled from the spec: an `ExplainedBool` is a boolean verdict plus an
opaque explanation object (modelled as a bare identifier). `Val` returns the
verdict. -/
structure ExplainedBool where
  Val : Bool
  expl : Nat
deriving DecidableEq, Repr

/-- Modelled from the spec: `sitesWithAssertions` is an edge set mapping
neighbor sites to the (possibly several) trigger assertions justifying the
edge; repeat insertions must not lose triggers. We model it as a list of
(neighbor, trigger) pairs. -/
abbrev sitesWithAssertions := List (primitiveSite × primitiveFullTrigger)

/-- Modelled from the spec: `newSitesWithAssertions` returns an empty edge
set. -/
def newSitesWithAssertions : sitesWithAssertions := []

/-- Modelled from the spec: `addSiteWithAssertion` adds a (neighbor,
trigger) pair, idempotently with respect to the pair's identity. -/
def addSiteWithAssertion (s : sitesWithAssertions) (site : primitiveSite)
    (assertion : primitiveFullTrigger) : sitesWithAssertions :=
  if (site, assertion) ∈ s then s else (site, assertion) :: s

/-- An `InferredVal` is either a `DeterminedVal` (fixed boolean with
explanation) or an `UndeterminedVal` (a node of the implication graph with
out-edges `Implicates` and in-edges `Implicants`). -/
inductive InferredVal where
  | DeterminedVal (explainedBool : ExplainedBool)
  | UndeterminedVal (Implicates Implicants : sitesWithAssertions)
deriving DecidableEq, Repr

/-- A Go `map[primitiveSite]InferredVal` embedded as an association list
with insert-overwrite semantics. -/
abbrev Mapping := List (primitiveSite × InferredVal)

/-- Lookup in an association list: the value at the first matching key. -/
def lookupVal : Mapping → primitiveSite → Option InferredVal
  | [], _ => none
  | kv :: rest, s => if kv.1 = s then some kv.2 else lookupVal rest s

/-- Insert-overwrite in an association list: replaces the first entry with
the given key, or appends a fresh entry at the end. -/
def mapInsert : Mapping → primitiveSite → InferredVal → Mapping
  | [], s, v => [(s, v)]
  | kv :: rest, s, v => if kv.1 = s then (s, v) :: rest else kv :: mapInsert rest s v

/-- Key iteration of a Go map over sites: each key once. -/
def keysD (m : Mapping) : List primitiveSite := (m.map Prod.fst).dedup

/-- Key iteration of an edge set: each neighbor site once. -/
def sitesOf (s : sitesWithAssertions) : List primitiveSite := (s.map Prod.fst).dedup

/-- The `InferredMap` state: the upstream snapshot and the live mapping. -/
structure InferredMap where
  upstreamMapping : Mapping
  mapping : Mapping
deriving DecidableEq, Repr

/-- `newInferredMap` returns a new, empty InferredMap. -/
def newInferredMap : InferredMap := { upstreamMapping := [], mapping := [] }

/-- `Load` returns the value stored in the map for an annotation site. -/
def Load (i : InferredMap) (site : primitiveSite) : Option InferredVal :=
  lookupVal i.mapping site

/-- `StoreDetermined` sets the inferred value for an annotation site. -/
def StoreDetermined (i : InferredMap) (site : primitiveSite) (value : ExplainedBool) :
    InferredMap :=
  { i with mapping := mapInsert i.mapping site (.DeterminedVal value) }

/-- The endpoint-creation step of `StoreImplication`: create an empty
`UndeterminedVal` entry for a site if it does not exist yet. -/
def ensureSite (m : Mapping) (site : primitiveSite) : Mapping :=
  match lookupVal m site with
  | some _ => m
  | none => mapInsert m site (.UndeterminedVal newSitesWithAssertions newSitesWithAssertions)

/-- `StoreImplication` stores an implication edge between the `from` and
`to` annotation sites.  The Go body first creates `UndeterminedVal` entries
for absent endpoints, then performs two unchecked type assertions
`.(*UndeterminedVal)`; a failing assertion is a runtime panic, modelled
here as `none`. -/
def StoreImplication (i : InferredMap) (fromSite toSite : primitiveSite)
    (assertion : primitiveFullTrigger) : Option InferredMap :=
  let m := ensureSite (ensureSite i.mapping fromSite) toSite
  match lookupVal m fromSite with
  | some (.UndeterminedVal imps impn) =>
    let m := mapInsert m fromSite
      (.UndeterminedVal (addSiteWithAssertion imps toSite assertion) impn)
    match lookupVal m toSite with
    | some (.UndeterminedVal imps2 impn2) =>
      let m2 := mapInsert m toSite
        (.UndeterminedVal imps2 (addSiteWithAssertion impn2 fromSite assertion))
      some { i with mapping := m2 }
    | _ => none
  | _ => none

/-- `Len` returns the number of annotation sites currently stored. -/
def Len (i : InferredMap) : Nat := i.mapping.length

/-- The three mark sets maintained by `chooseSitesToExport`. -/
structure ChooseState where
  toExport : List primitiveSite
  reachableFromExported : List primitiveSite
  reachesExported : List primitiveSite
deriving Repr

/-- The recursive helper `markReachableFromExported` of
`chooseSitesToExport`: forward marking along `Implicates`, with the fuel
argument standing in for the termination handled in Go by the monotone
growth of the mark sets. -/
def markReachableFromExported (m : Mapping) : Nat → ChooseState → primitiveSite → ChooseState
  | 0, st, _ => st
  | fuel + 1, st, site =>
    match lookupVal m site with
    | some (.UndeterminedVal imps _) =>
      if site.exported = false ∧ site ∉ st.toExport ∧ site ∉ st.reachableFromExported then
        let st1 :=
          if site ∈ st.reachesExported then
            { st with toExport := site :: st.toExport }
          else
            { st with reachableFromExported := site :: st.reachableFromExported }
        (sitesOf imps).foldl (fun acc s => markReachableFromExported m fuel acc s) st1
      else st
    | _ => st

/-- The recursive helper `markReachesExported` of `chooseSitesToExport`:
backward marking along `Implicants`. -/
def markReachesExported (m : Mapping) : Nat → ChooseState → primitiveSite → ChooseState
  | 0, st, _ => st
  | fuel + 1, st, site =>
    match lookupVal m site with
    | some (.UndeterminedVal _ impn) =>
      if site.exported = false ∧ site ∉ st.toExport ∧ site ∉ st.reachesExported then
        let st1 :=
          if site ∈ st.reachableFromExported then
            { st with toExport := site :: st.toExport }
          else
            { st with reachesExported := site :: st.reachesExported }
        (sitesOf impn).foldl (fun acc s => markReachesExported m fuel acc s) st1
      else st
    | _ => st

/-- The main loop of `chooseSitesToExport` over the sites of the mapping:
every site whose exported bit is set is added to `toExport`, and if it is
undetermined the backward and forward markers are launched from its
implicants and implicates respectively. -/
def chooseLoop (m : Mapping) (fuel : Nat) : List primitiveSite → ChooseState → ChooseState
  | [], st => st
  | site :: rest, st =>
    if site.exported = true then
      let st1 := { st with toExport := site :: st.toExport }
      let st2 :=
        match lookupVal m site with
        | some (.UndeterminedVal imps impn) =>
          let stA := (sitesOf impn).foldl (fun acc s => markReachesExported m fuel acc s) st1
          (sitesOf imps).foldl (fun acc s => markReachableFromExported m fuel acc s) stA
        | _ => st1
      chooseLoop m fuel rest st2
    else chooseLoop m fuel rest st

/-- `chooseSitesToExport` returns the set of sites that are both reachable
from and reach an exported site (reflexively), computed by the marking
procedure of the source. -/
def chooseSitesToExport (m : Mapping) : List primitiveSite :=
  (chooseLoop m (keysD m).length (keysD m)
    { toExport := [], reachableFromExported := [], reachesExported := [] }).toExport

/-- Modelled from the spec: `inferredValDiff` computes the delta of a local
value against the upstream value for the same site: a previously
undetermined entry strengthened into a determined one is emitted whole, new
edges on an undetermined entry are emitted as a delta, and if nothing
changed nothing is emitted (`none`). -/
def inferredValDiff (val upstreamVal : InferredVal) : Option InferredVal :=
  match val, upstreamVal with
  | .DeterminedVal b, .UndeterminedVal _ _ => some (.DeterminedVal b)
  | .DeterminedVal _, .DeterminedVal _ => none
  | .UndeterminedVal imps impn, .UndeterminedVal uimps uimpn =>
    let dImps := imps.filter (fun e => e ∉ uimps)
    let dImpn := impn.filter (fun e => e ∉ uimpn)
    if dImps = [] ∧ dImpn = [] then none else some (.UndeterminedVal dImps dImpn)
  | .UndeterminedVal _ _, .DeterminedVal _ => none

/-- The selection and diffing done for one entry of the live mapping by
`Export`: a selected site absent upstream is emitted whole, a selected site
present upstream is emitted as its diff when nonempty, everything else is
dropped. -/
def exportEntry (i : InferredMap) (sitesToExport : List primitiveSite)
    (sv : primitiveSite × InferredVal) : Option (primitiveSite × InferredVal) :=
  if sv.1 ∈ sitesToExport then
    match lookupVal i.upstreamMapping sv.1 with
    | some upstreamVal =>
      match inferredValDiff sv.2 upstreamVal with
      | some diff => some (sv.1, diff)
      | none => none
    | none => some sv
  else none

/-- `Export` encodes only new information not already present in the
upstream map, restricted to the sites chosen by `chooseSitesToExport`.  The
Go method mutates no field of the receiver and at most emits one package
fact; we model it as returning the receiver state after the call together
with the emitted fact (if any). -/
def Export (i : InferredMap) : InferredMap × Option InferredMap :=
  if i.mapping.length = 0 then (i, none)
  else
    let exported := i.mapping.filterMap (exportEntry i (chooseSitesToExport i.mapping))
    if 0 < exported.length then
      (i, some { newInferredMap with mapping := exported })
    else (i, none)

/-- Modelled from the spec: the construction of a primitive site key from a
typed program entity; the entity determines the location identity and the
exported bit, the second argument is the deep bit. -/
structure annotationKey where
  id : Nat
  vis : Bool
deriving DecidableEq, Repr

/-- Modelled from the spec: `newPrimitiveSite` builds the site key for an
entity with the given deep bit; the exported bit reflects the entity's
source-level visibility. -/
def newPrimitiveSite (key : annotationKey) (deep : Bool) : primitiveSite :=
  { key := key.id, deep := deep, exported := key.vis }

/-- Modelled from the spec: the composite nilability answer
(`annotation.Val`) with its two verdict bits and two set bits. -/
structure AnnVal where
  IsNilable : Bool
  IsDeepNilable : Bool
  IsNilableSet : Bool
  IsDeepNilableSet : Bool
deriving DecidableEq, Repr

/-- Modelled from the spec: the neutral empty answer (`annotation.EmptyVal`). -/
def EmptyVal : AnnVal :=
  { IsNilable := false, IsDeepNilable := false, IsNilableSet := false, IsDeepNilableSet := false }

/-- Modelled from the spec: the wire format encodes a site as its entity
identity followed by the deep bit and the exported bit. -/
def encodeSite (s : primitiveSite) : List Nat :=
  [s.key, s.deep.toNat, s.exported.toNat]

/-- Wire format of one edge: the neighbor site followed by its trigger. -/
def encodeEdge (e : primitiveSite × primitiveFullTrigger) : List Nat :=
  encodeSite e.1 ++ [e.2]

/-- Wire format of an edge set: the number of edges then each edge. -/
def encodeEdges (l : sitesWithAssertions) : List Nat :=
  l.length :: l.foldr (fun e acc => encodeEdge e ++ acc) []

/-- Wire format of a value: a variant tag, then either the explained bool
or the two edge sets. -/
def encodeVal : InferredVal → List Nat
  | .DeterminedVal b => 0 :: b.Val.toNat :: [b.expl]
  | .UndeterminedVal A B => 1 :: (encodeEdges A ++ encodeEdges B)

/-- Wire format of one mapping entry: the site then its value. -/
def encodeEntry (kv : primitiveSite × InferredVal) : List Nat :=
  encodeSite kv.1 ++ encodeVal kv.2

/-- Wire format of the live mapping: the number of entries then each entry. -/
def encodeMapping (m : Mapping) : List Nat :=
  m.length :: m.foldr (fun kv acc => encodeEntry kv ++ acc) []

/-- `GobEncode` encodes the live mapping only. -/
def GobEncode (i : InferredMap) : List Nat := encodeMapping i.mapping

/-- Wire decoder for a site. -/
def decodeSite : List Nat → Option (primitiveSite × List Nat)
  | k :: d :: e :: rest => some ({ key := k, deep := d == 1, exported := e == 1 }, rest)
  | _ => none

/-- Wire decoder for one edge. -/
def decodeEdge (l : List Nat) : Option ((primitiveSite × primitiveFullTrigger) × List Nat) :=
  match decodeSite l with
  | some (s, t :: rest) => some ((s, t), rest)
  | _ => none

/-- Wire decoder for a counted sequence of edges. -/
def decodeEdgesN : Nat → List Nat → Option (sitesWithAssertions × List Nat)
  | 0, l => some ([], l)
  | n + 1, l =>
    match decodeEdge l with
    | some (e, rest) =>
      match decodeEdgesN n rest with
      | some (es, rest2) => some (e :: es, rest2)
      | none => none
    | none => none

/-- Wire decoder for an edge set. -/
def decodeEdges : List Nat → Option (sitesWithAssertions × List Nat)
  | n :: rest => decodeEdgesN n rest
  | [] => none

/-- Wire decoder for a value. -/
def decodeVal : List Nat → Option (InferredVal × List Nat)
  | 0 :: v :: e :: rest => some (.DeterminedVal { Val := v == 1, expl := e }, rest)
  | 1 :: rest =>
    match decodeEdges rest with
    | some (A, rest1) =>
      match decodeEdges rest1 with
      | some (B, rest2) => some (.UndeterminedVal A B, rest2)
      | none => none
    | none => none
  | _ => none

/-- Wire decoder for one mapping entry. -/
def decodeEntry (l : List Nat) : Option ((primitiveSite × InferredVal) × List Nat) :=
  match decodeSite l with
  | some (s, rest) =>
    match decodeVal rest with
    | some (v, rest2) => some ((s, v), rest2)
    | none => none
  | none => none

/-- Wire decoder for a counted sequence of mapping entries. -/
def decodeEntriesN : Nat → List Nat → Option (Mapping × List Nat)
  | 0, l => some ([], l)
  | n + 1, l =>
    match decodeEntry l with
    | some (kv, rest) =>
      match decodeEntriesN n rest with
      | some (m, rest2) => some (kv :: m, rest2)
      | none => none
    | none => none

/-- Wire decoder for the whole mapping payload. -/
def decodeMapping : List Nat → Option (Mapping × List Nat)
  | n :: rest => decodeEntriesN n rest
  | [] => none

/-- `GobDecode` initializes both `mapping` and `upstreamMapping` as
separate empty containers and then populates `mapping` from the payload;
a malformed payload is an error (`none`). -/
def GobDecode (input : List Nat) : Option InferredMap :=
  match decodeMapping input with
  | some (m, _) => some { upstreamMapping := [], mapping := m }
  | none => none

/-- The maps producible by sequences of successful mutation calls starting
from the empty map. -/
inductive Reaches : InferredMap → Prop where
  | empty : Reaches newInferredMap
  | det {i : InferredMap} (site : primitiveSite) (value : ExplainedBool) :
      Reaches i → Reaches (StoreDetermined i site value)
  | impl {i i' : InferredMap} (fromSite toSite : primitiveSite)
      (assertion : primitiveFullTrigger) :
      Reaches i → StoreImplication i fromSite toSite assertion = some i' → Reaches i'

/-- A site currently holding an `UndeterminedVal`. -/
def isUndet (m : Mapping) (s : primitiveSite) : Prop :=
  ∃ A B, lookupVal m s = some (.UndeterminedVal A B)

/-- A private (non-exported) undetermined site. -/
def privUndet (m : Mapping) (s : primitiveSite) : Prop :=
  s.exported = false ∧ isUndet m s

/-- The implication edge `u ⇒ v` as recorded in `u`'s `Implicates`. -/
def implEdge (m : Mapping) (u v : primitiveSite) : Prop :=
  ∃ A B, lookupVal m u = some (.UndeterminedVal A B) ∧ v ∈ sitesOf A

/-- The back-pointer step from `u` to `v` via `u`'s `Implicants` (that is,
the record of an edge `v ⇒ u`). -/
def impnEdge (m : Mapping) (u v : primitiveSite) : Prop :=
  ∃ A B, lookupVal m u = some (.UndeterminedVal A B) ∧ v ∈ sitesOf B

/-- Forward reachability along `Implicates` pointers through private
undetermined sites (reflexive; every site on the way, endpoints included,
is private and undetermined). -/
inductive PPath (m : Mapping) : primitiveSite → primitiveSite → Prop where
  | refl (s : primitiveSite) : privUndet m s → PPath m s s
  | tail {u v w : primitiveSite} :
      PPath m u v → implEdge m v w → privUndet m w → PPath m u w

/-- Backward reachability along `Implicants` pointers through private
undetermined sites (reflexive). -/
inductive QPath (m : Mapping) : primitiveSite → primitiveSite → Prop where
  | refl (s : primitiveSite) : privUndet m s → QPath m s s
  | tail {u v w : primitiveSite} :
      QPath m u v → impnEdge m v w → privUndet m w → QPath m u w

/-- A directed path `a ⇒ … ⇒ b` following `Implicates` edges, listing the
intermediate sites. -/
inductive ImplPathI (m : Mapping) : primitiveSite → List primitiveSite → primitiveSite → Prop where
  | single {a b : primitiveSite} : implEdge m a b → ImplPathI m a [] b
  | cons {a x b : primitiveSite} {l : List primitiveSite} :
      implEdge m a x → ImplPathI m x l b → ImplPathI m a (x :: l) b

/-- A private site that some exported site reaches by one `Implicates` edge
followed by a private-undetermined forward path. -/
def Fwd (m : Mapping) (p : primitiveSite) : Prop :=
  ∃ e A B, e.exported = true ∧ lookupVal m e = some (.UndeterminedVal A B) ∧
    ∃ v, v ∈ sitesOf A ∧ PPath m v p

/-- A private site that reaches some exported site: one `Implicants`
back-pointer of the exported site followed by a private-undetermined
backward path. -/
def Bwd (m : Mapping) (p : primitiveSite) : Prop :=
  ∃ e A B, e.exported = true ∧ lookupVal m e = some (.UndeterminedVal A B) ∧
    ∃ v, v ∈ sitesOf B ∧ QPath m v p

/-- The documented edge-symmetry invariant at the level of neighbor
membership: `u ⇒ v` is recorded under `u.Implicates` iff it is recorded
under `v.Implicants`. -/
def EdgeSymm (m : Mapping) : Prop :=
  ∀ u v, implEdge m u v ↔ impnEdge m v u

/-- The sites blocking the forward marker: `toExport` and
`reachableFromExported` together. -/
def marksF (st : ChooseState) : List primitiveSite :=
  st.toExport ++ st.reachableFromExported

/-- The sites blocking the backward marker: `toExport` and
`reachesExported` together. -/
def marksB (st : ChooseState) : List primitiveSite :=
  st.toExport ++ st.reachesExported

/-- The number of mapping sites the forward marker can still process. -/
def remF (m : Mapping) (st : ChooseState) : Nat :=
  ((keysD m).filter (fun s => decide (s ∉ marksF st))).length

/-- The number of mapping sites the backward marker can still process. -/
def remB (m : Mapping) (st : ChooseState) : Nat :=
  ((keysD m).filter (fun s => decide (s ∉ marksB st))).length

/-- `checkAnnotationKey` looks up the shallow and the deep site for a key
and answers only when both are present and determined. -/
def checkAnnotationKey (i : InferredMap) (key : annotationKey) : AnnVal × Bool :=
  let shallowKey := newPrimitiveSite key false
  let deepKey := newPrimitiveSite key true
  match lookupVal i.mapping shallowKey, lookupVal i.mapping deepKey with
  | some shallowVal, some deepVal =>
    match shallowVal, deepVal with
    | .DeterminedVal shallowBoolVal, .DeterminedVal deepBoolVal =>
      ({ IsNilable := shallowBoolVal.Val, IsDeepNilable := deepBoolVal.Val,
         IsNilableSet := true, IsDeepNilableSet := true }, true)
    | _, _ => (EmptyVal, false)
  | _, _ => (EmptyVal, false)


/-- Boolean test for a recorded `Implicates` edge `u ⇒ v`. -/
def implEdgeB (m : Mapping) (u v : primitiveSite) : Bool :=
  match lookupVal m u with
  | some (.UndeterminedVal A _) => decide (v ∈ sitesOf A)
  | _ => false

/-- Boolean test for a recorded `Implicants` back-pointer from `u` to `v`. -/
def impnEdgeB (m : Mapping) (u v : primitiveSite) : Bool :=
  match lookupVal m u with
  | some (.UndeterminedVal _ B) => decide (v ∈ sitesOf B)
  | _ => false

/-- Executable edge-symmetry check over the keys of a mapping. -/
def edgeSymmB (m : Mapping) : Bool :=
  (keysD m).all (fun u =>
    match lookupVal m u with
    | some (.UndeterminedVal A B) =>
      (sitesOf A).all (fun v => impnEdgeB m v u) && (sitesOf B).all (fun v => implEdgeB m v u)
    | _ => true)

/-! ### Basic lemmas about the embedded map operations -/

theorem lookupVal_mapInsert (m : Mapping) (s t : primitiveSite) (v : InferredVal) :
    lookupVal (mapInsert m s v) t = if s = t then some v else lookupVal m t := by
  induction m with
  | nil =>
    by_cases h : s = t <;> simp [mapInsert, lookupVal, h]
  | cons kv rest ih =>
    by_cases hk : kv.1 = s
    · by_cases h : s = t
      · simp [mapInsert, lookupVal, hk, h]
      · have hkt : ¬ kv.1 = t := fun hc => h (hk ▸ hc)
        simp [mapInsert, lookupVal, hk, h, hkt]
    · by_cases hkt : kv.1 = t
      · have hst : ¬ s = t := fun hc => hk (hkt ▸ hc ▸ rfl)
        have hts : ¬ t = s := fun hc => hst hc.symm
        simp [mapInsert, lookupVal, hk, hkt, hst, hts]
      · simp [mapInsert, lookupVal, hk, hkt, ih]

theorem mapInsert_self (m : Mapping) (s : primitiveSite) (v : InferredVal)
    (h : lookupVal m s = some v) : mapInsert m s v = m := by
  induction m with
  | nil => simp [lookupVal] at h
  | cons kv rest ih =>
    by_cases hk : kv.1 = s
    · simp only [lookupVal, if_pos hk] at h
      have : (s, v) = kv := by
        cases kv
        simp_all
      simp [mapInsert, hk, this]
    · simp only [lookupVal, if_neg hk] at h
      simp [mapInsert, hk, ih h]

theorem mem_keysD_iff (m : Mapping) (s : primitiveSite) :
    s ∈ keysD m ↔ ∃ v, lookupVal m s = some v := by
  induction m with
  | nil => simp [keysD, lookupVal]
  | cons kv rest ih =>
    simp only [keysD, List.map_cons, List.mem_dedup, List.mem_cons] at ih ⊢
    by_cases hk : kv.1 = s
    · simp [lookupVal, hk]
    · have : ¬ s = kv.1 := fun hc => hk hc.symm
      simp [lookupVal, hk, this, ih]

theorem keysD_nodup (m : Mapping) : (keysD m).Nodup := List.nodup_dedup _

theorem mem_sitesOf (A : sitesWithAssertions) (v : primitiveSite) :
    v ∈ sitesOf A ↔ ∃ t, (v, t) ∈ A := by
  simp only [sitesOf, List.mem_dedup, List.mem_map]
  constructor
  · rintro ⟨⟨a, b⟩, hab, rfl⟩
    exact ⟨b, hab⟩
  · rintro ⟨t, ht⟩
    exact ⟨(v, t), ht, rfl⟩

theorem mem_addSiteWithAssertion (s : sitesWithAssertions) (site : primitiveSite)
    (a : primitiveFullTrigger) (p : primitiveSite × primitiveFullTrigger) :
    p ∈ addSiteWithAssertion s site a ↔ p = (site, a) ∨ p ∈ s := by
  unfold addSiteWithAssertion
  split
  · rename_i h
    constructor
    · exact fun hp => Or.inr hp
    · rintro (rfl | hp)
      · exact h
      · exact hp
  · simp

theorem ensureSite_some (m : Mapping) (s : primitiveSite) (v : InferredVal)
    (h : lookupVal m s = some v) : ensureSite m s = m := by
  simp [ensureSite, h]

theorem ensureSite_none (m : Mapping) (s : primitiveSite)
    (h : lookupVal m s = none) :
    ensureSite m s =
      mapInsert m s (.UndeterminedVal newSitesWithAssertions newSitesWithAssertions) := by
  simp [ensureSite, h]

theorem lookup_of_mem_nodup (m : Mapping) (kv : primitiveSite × InferredVal)
    (hnd : (m.map Prod.fst).Nodup) (hm : kv ∈ m) : lookupVal m kv.1 = some kv.2 := by
  induction m with
  | nil => simp at hm
  | cons hd rest ih =>
    simp only [List.map_cons, List.nodup_cons] at hnd
    rw [List.mem_cons] at hm
    rcases hm with rfl | hm
    · simp [lookupVal]
    · have hne : hd.1 ≠ kv.1 := by
        intro h
        exact hnd.1 (h ▸ List.mem_map_of_mem Prod.fst hm)
      simp [lookupVal, hne, ih hnd.2 hm]

theorem length_filter_le_mono {α : Type} (l : List α) (p q : α → Bool)
    (himp : ∀ a ∈ l, q a = true → p a = true) :
    (l.filter q).length ≤ (l.filter p).length := by
  induction l with
  | nil => simp
  | cons a l ih =>
    have ih' := ih (fun x hx => himp x (List.mem_cons_of_mem a hx))
    by_cases hq : q a = true
    · have hp := himp a (List.mem_cons_self a l) hq
      simpa [List.filter_cons, hq, hp] using ih'
    · simp only [Bool.not_eq_true] at hq
      by_cases hp : p a = true
      · simpa [List.filter_cons, hq, hp] using Nat.le_succ_of_le ih'
      · simp only [Bool.not_eq_true] at hp
        simpa [List.filter_cons, hq, hp] using ih'

theorem length_filter_lt {α : Type} (l : List α) (p q : α → Bool) (x : α)
    (hx : x ∈ l) (hpx : p x = true) (hqx : q x = false)
    (himp : ∀ a ∈ l, q a = true → p a = true) :
    (l.filter q).length < (l.filter p).length := by
  induction l with
  | nil => simp at hx
  | cons a l ih =>
    have himp' : ∀ b ∈ l, q b = true → p b = true :=
      fun b hb => himp b (List.mem_cons_of_mem a hb)
    rw [List.mem_cons] at hx
    by_cases hq : q a = true
    · have hp := himp a (List.mem_cons_self a l) hq
      have hxl : x ∈ l := by
        rcases hx with rfl | hx
        · rw [hq] at hqx; cases hqx
        · exact hx
      simpa [List.filter_cons, hq, hp] using ih hxl himp'
    · simp only [Bool.not_eq_true] at hq
      by_cases hp : p a = true
      · rcases hx with rfl | hxl
        · simpa [List.filter_cons, hq, hp] using
            Nat.lt_succ_of_le (length_filter_le_mono l p q himp')
        · simpa [List.filter_cons, hq, hp] using Nat.lt_succ_of_lt (ih hxl himp')
      · simp only [Bool.not_eq_true] at hp
        rcases hx with rfl | hxl
        · rw [hpx] at hp; cases hp
        · simpa [List.filter_cons, hq, hp] using ih hxl himp'

/-! ### C6: query soundness of the annotation facade -/

/-- C6: `checkAnnotationKey` returns ok=true iff both the shallow and the
deep site key are present in `mapping` and both are determined; in every
other case it returns the neutral empty answer with ok=false; and when
ok=true the answer carries the two determined booleans with both set bits
true. -/
theorem checkAnnotationKey_query_soundness (i : InferredMap) (key : annotationKey) :
    ((checkAnnotationKey i key).2 = true ↔
      ((∃ sb, lookupVal i.mapping (newPrimitiveSite key false) = some (.DeterminedVal sb)) ∧
       (∃ db, lookupVal i.mapping (newPrimitiveSite key true) = some (.DeterminedVal db)))) ∧
    ((checkAnnotationKey i key).2 = false → (checkAnnotationKey i key).1 = EmptyVal) ∧
    (∀ sb db,
      lookupVal i.mapping (newPrimitiveSite key false) = some (.DeterminedVal sb) →
      lookupVal i.mapping (newPrimitiveSite key true) = some (.DeterminedVal db) →
      checkAnnotationKey i key =
        ({ IsNilable := sb.Val, IsDeepNilable := db.Val,
           IsNilableSet := true, IsDeepNilableSet := true }, true)) := by
  rcases hs : lookupVal i.mapping (newPrimitiveSite key false) with _ | sv
  · simp [checkAnnotationKey, hs]
  · rcases hd : lookupVal i.mapping (newPrimitiveSite key true) with _ | dv
    · rcases sv with sb | ⟨A, B⟩ <;> simp [checkAnnotationKey, hs, hd]
    · rcases sv with sb | ⟨A, B⟩ <;> rcases dv with db | ⟨C, D⟩ <;>
        simp [checkAnnotationKey, hs, hd]

/-- C6 witness: a concrete map with both sites determined answers with both
verdicts and ok=true. -/
theorem checkAnnotationKey_query_soundness_witness :
    checkAnnotationKey
      { upstreamMapping := [],
        mapping := [({ key := 0, deep := false, exported := false }, .DeterminedVal { Val := true, expl := 5 }),
                    ({ key := 0, deep := true, exported := false }, .DeterminedVal { Val := false, expl := 6 })] }
      { id := 0, vis := false } =
      ({ IsNilable := true, IsDeepNilable := false, IsNilableSet := true, IsDeepNilableSet := true }, true) :=
  (checkAnnotationKey_query_soundness _ _).2.2 { Val := true, expl := 5 } { Val := false, expl := 6 }
    (by decide) (by decide)

/-! ### C9: store_implication with a determined endpoint -/

/-- C9 counterexample: the claim that `StoreImplication` completes without
panicking when an endpoint is already determined is false — on the concrete
map holding a determined value for the `from` site, the unchecked type
assertion fails (a Go panic, modelled as `none`). -/
theorem storeImplication_determined_cex :
    ¬ (∀ (i : InferredMap) (f t : primitiveSite) (a : primitiveFullTrigger),
        ((∃ b, lookupVal i.mapping f = some (.DeterminedVal b)) ∨
         (∃ b, lookupVal i.mapping t = some (.DeterminedVal b))) →
        (StoreImplication i f t a).isSome = true) := by
  intro h
  have hv := h
    { upstreamMapping := [],
      mapping := [({ key := 0, deep := false, exported := false },
        .DeterminedVal { Val := true, expl := 0 })] }
    { key := 0, deep := false, exported := false }
    { key := 1, deep := false, exported := false } 0
    (Or.inl ⟨{ Val := true, expl := 0 }, by decide⟩)
  exact absurd hv (by decide)

/-- C9 amended: when either endpoint of `StoreImplication` is already
present as a determined value, the operation does not complete: the failed
type assertion is a runtime panic, modelled as `none` (the caller gets no
updated map and no mutated state survives). -/
theorem storeImplication_determined_panics (i : InferredMap) (f t : primitiveSite)
    (a : primitiveFullTrigger)
    (h : (∃ b, lookupVal i.mapping f = some (.DeterminedVal b)) ∨
         (∃ b, lookupVal i.mapping t = some (.DeterminedVal b))) :
    StoreImplication i f t a = none := by
  unfold StoreImplication
  rcases hf : lookupVal i.mapping f with _ | fv
  · -- `f` absent: the hypothesis must concern `t`
    rcases h with ⟨b, hb⟩ | ⟨b, hb⟩
    · rw [hf] at hb; cases hb
    · have hft : ¬ f = t := by
        intro hc
        rw [hc, hb] at hf; cases hf
      have h1 : lookupVal (mapInsert i.mapping f
          (.UndeterminedVal newSitesWithAssertions newSitesWithAssertions)) t =
          some (.DeterminedVal b) := by
        rw [lookupVal_mapInsert, if_neg hft, hb]
      have h2 : lookupVal (mapInsert i.mapping f
          (.UndeterminedVal newSitesWithAssertions newSitesWithAssertions)) f =
          some (.UndeterminedVal newSitesWithAssertions newSitesWithAssertions) := by
        rw [lookupVal_mapInsert, if_pos rfl]
      have h3 : lookupVal (mapInsert (mapInsert i.mapping f
          (.UndeterminedVal newSitesWithAssertions newSitesWithAssertions)) f
          (.UndeterminedVal (addSiteWithAssertion newSitesWithAssertions t a)
            newSitesWithAssertions)) t = some (.DeterminedVal b) := by
        rw [lookupVal_mapInsert, if_neg hft, h1]
      rw [ensureSite_none _ _ hf, ensureSite_some _ _ _ h1]
      simp only [h1, h2, h3]
  · rcases fv with b | ⟨A, B⟩
    · -- `f` determined: ensuring either endpoint never replaces it
      rcases hftv : lookupVal i.mapping t with _ | tv
      · have hft : ¬ f = t := by
          intro hc
          rw [hc, hftv] at hf; cases hf
        have hntf : ¬ t = f := fun hc => hft hc.symm
        have h1 : lookupVal (mapInsert i.mapping t
            (.UndeterminedVal newSitesWithAssertions newSitesWithAssertions)) f =
            some (.DeterminedVal b) := by
          rw [lookupVal_mapInsert, if_neg hntf, hf]
        rw [ensureSite_some _ _ _ hf, ensureSite_none _ _ hftv]
        simp only [h1]
      · rw [ensureSite_some _ _ _ hf, ensureSite_some _ _ _ hftv]
        simp only [hf]
    · -- `f` undetermined: the hypothesis must concern `t`, which stays determined
      rcases h with ⟨b, hb⟩ | ⟨b, hb⟩
      · rw [hf] at hb; cases hb
      · have hft : ¬ f = t := by
          intro hc
          rw [hc, hb] at hf; cases hf
        have h1 : lookupVal (mapInsert i.mapping f
            (.UndeterminedVal (addSiteWithAssertion A t a) B)) t =
            some (.DeterminedVal b) := by
          rw [lookupVal_mapInsert, if_neg hft, hb]
        rw [ensureSite_some _ _ _ hf, ensureSite_some _ _ _ hb]
        simp only [hf, h1]

/-- C9 witness for the amended theorem: a concrete determined endpoint makes
the call fail. -/
theorem storeImplication_determined_panics_witness :
    StoreImplication
      { upstreamMapping := [],
        mapping := [({ key := 0, deep := false, exported := false },
          .DeterminedVal { Val := true, expl := 0 })] }
      { key := 0, deep := false, exported := false }
      { key := 1, deep := false, exported := false } 0 = none :=
  storeImplication_determined_panics _ _ _ _
    (Or.inl ⟨{ Val := true, expl := 0 }, by decide⟩)

/-! ### Serializer round-trip -/

theorem decodeSite_encodeSite (s : primitiveSite) (r : List Nat) :
    decodeSite (encodeSite s ++ r) = some (s, r) := by
  rcases s with ⟨k, d, e⟩
  cases d <;> cases e <;> rfl

theorem decodeEdge_encodeEdge (e : primitiveSite × primitiveFullTrigger) (r : List Nat) :
    decodeEdge (encodeEdge e ++ r) = some (e, r) := by
  rcases e with ⟨s, t⟩
  unfold decodeEdge encodeEdge
  rw [List.append_assoc, decodeSite_encodeSite]
  rfl

theorem decodeEdgesN_encode (l : sitesWithAssertions) (r : List Nat) :
    decodeEdgesN l.length (l.foldr (fun e acc => encodeEdge e ++ acc) [] ++ r) =
      some (l, r) := by
  induction l generalizing r with
  | nil => rfl
  | cons e l ih =>
    simp only [List.length_cons, List.foldr_cons, decodeEdgesN, List.append_assoc,
      decodeEdge_encodeEdge, ih]

theorem decodeEdges_encodeEdges (l : sitesWithAssertions) (r : List Nat) :
    decodeEdges (encodeEdges l ++ r) = some (l, r) := by
  simp only [encodeEdges, List.cons_append, decodeEdges, decodeEdgesN_encode]

theorem decodeVal_encodeVal (v : InferredVal) (r : List Nat) :
    decodeVal (encodeVal v ++ r) = some (v, r) := by
  rcases v with ⟨bv, be⟩ | ⟨A, B⟩
  · cases bv <;> rfl
  · simp only [encodeVal, List.cons_append, decodeVal, List.append_assoc,
      decodeEdges_encodeEdges]

theorem decodeEntry_encodeEntry (kv : primitiveSite × InferredVal) (r : List Nat) :
    decodeEntry (encodeEntry kv ++ r) = some (kv, r) := by
  rcases kv with ⟨s, v⟩
  unfold decodeEntry encodeEntry
  rw [List.append_assoc, decodeSite_encodeSite]
  simp only [decodeVal_encodeVal]

theorem decodeEntriesN_encode (m : Mapping) (r : List Nat) :
    decodeEntriesN m.length (m.foldr (fun kv acc => encodeEntry kv ++ acc) [] ++ r) =
      some (m, r) := by
  induction m generalizing r with
  | nil => rfl
  | cons kv m ih =>
    simp only [List.length_cons, List.foldr_cons, decodeEntriesN, List.append_assoc,
      decodeEntry_encodeEntry, ih]

theorem gobDecode_gobEncode (i : InferredMap) :
    GobDecode (GobEncode i) = some { upstreamMapping := [], mapping := i.mapping } := by
  unfold GobDecode GobEncode encodeMapping decodeMapping
  have h := decodeEntriesN_encode i.mapping []
  rw [List.append_nil] at h
  simp only [h]

/-! ### Structure of a successful StoreImplication -/

theorem lookupVal_ensureSite_pres (m : Mapping) (s u : primitiveSite) (v : InferredVal)
    (h : lookupVal m u = some v) : lookupVal (ensureSite m s) u = some v := by
  rcases hs : lookupVal m s with _ | w
  · rw [ensureSite_none _ _ hs, lookupVal_mapInsert]
    have : ¬ s = u := by
      intro hc
      rw [hc, h] at hs; cases hs
    rw [if_neg this, h]
  · rw [ensureSite_some _ _ _ hs, h]

theorem addSiteWithAssertion_of_mem (s : sitesWithAssertions) (site : primitiveSite)
    (a : primitiveFullTrigger) (h : (site, a) ∈ s) :
    addSiteWithAssertion s site a = s := by
  simp [addSiteWithAssertion, h]

theorem storeImplication_some_spec (i : InferredMap) (f t : primitiveSite)
    (a : primitiveFullTrigger) (i' : InferredMap)
    (h : StoreImplication i f t a = some i') :
    i'.upstreamMapping = i.upstreamMapping ∧
    ∃ A B C D,
      lookupVal (ensureSite (ensureSite i.mapping f) t) f = some (.UndeterminedVal A B) ∧
      lookupVal (mapInsert (ensureSite (ensureSite i.mapping f) t) f
        (.UndeterminedVal (addSiteWithAssertion A t a) B)) t = some (.UndeterminedVal C D) ∧
      i'.mapping = mapInsert (mapInsert (ensureSite (ensureSite i.mapping f) t) f
        (.UndeterminedVal (addSiteWithAssertion A t a) B)) t
        (.UndeterminedVal C (addSiteWithAssertion D f a)) := by
  unfold StoreImplication at h
  rcases hF : lookupVal (ensureSite (ensureSite i.mapping f) t) f with _ | v
  · simp [hF] at h
  · rcases v with b | ⟨A, B⟩
    · simp [hF] at h
    · simp only [hF] at h
      rcases hT : lookupVal (mapInsert (ensureSite (ensureSite i.mapping f) t) f
          (.UndeterminedVal (addSiteWithAssertion A t a) B)) t with _ | w
      · simp [hT] at h
      · rcases w with b | ⟨C, D⟩
        · simp [hT] at h
        · simp only [hT] at h
          injection h with h
          subst h
          exact ⟨rfl, A, B, C, D, rfl, hT, rfl⟩

/-- Any already-recorded pair of an undetermined entry survives a
successful `StoreImplication`, and the updated entries only grow. -/
theorem storeImplication_mono (i i' : InferredMap) (f t : primitiveSite)
    (a : primitiveFullTrigger) (h : StoreImplication i f t a = some i') :
    ∀ u A B, lookupVal i.mapping u = some (.UndeterminedVal A B) →
      ∃ A' B', lookupVal i'.mapping u = some (.UndeterminedVal A' B') ∧
        (∀ p, p ∈ A → p ∈ A') ∧ (∀ p, p ∈ B → p ∈ B') := by
  obtain ⟨-, A0, B0, C0, D0, hF, hT, hM⟩ := storeImplication_some_spec i f t a i' h
  intro u A B hu
  have humB : lookupVal (ensureSite (ensureSite i.mapping f) t) u =
      some (.UndeterminedVal A B) :=
    lookupVal_ensureSite_pres _ _ _ _ (lookupVal_ensureSite_pres _ _ _ _ hu)
  by_cases hut : u = t
  · subst hut
    by_cases huf : u = f
    · -- self-loop: both updates hit the same entry
      subst huf
      rw [humB] at hF
      injection hF with hF
      injection hF with hF1 hF2
      subst hF1
      subst hF2
      rw [lookupVal_mapInsert, if_pos rfl] at hT
      injection hT with hT
      injection hT with hT1 hT2
      subst hT1
      subst hT2
      refine ⟨addSiteWithAssertion A u a, addSiteWithAssertion B u a, ?_, ?_, ?_⟩
      · rw [hM, lookupVal_mapInsert, if_pos rfl]
      · intro p hp
        rw [mem_addSiteWithAssertion]
        exact Or.inr hp
      · intro p hp
        rw [mem_addSiteWithAssertion]
        exact Or.inr hp
    · have hfu : ¬ f = u := fun hc => huf hc.symm
      rw [lookupVal_mapInsert, if_neg hfu, humB] at hT
      injection hT with hT
      injection hT with hT1 hT2
      subst hT1
      subst hT2
      refine ⟨A, addSiteWithAssertion B f a, ?_, fun p hp => hp, ?_⟩
      · rw [hM, lookupVal_mapInsert, if_pos rfl]
      · intro p hp
        rw [mem_addSiteWithAssertion]
        exact Or.inr hp
  · have htu : ¬ t = u := fun hc => hut hc.symm
    by_cases huf : u = f
    · subst huf
      rw [humB] at hF
      injection hF with hF
      injection hF with hF1 hF2
      subst hF1
      subst hF2
      refine ⟨addSiteWithAssertion A t a, B, ?_, ?_, fun p hp => hp⟩
      · rw [hM, lookupVal_mapInsert, if_neg htu, lookupVal_mapInsert, if_pos rfl]
      · intro p hp
        rw [mem_addSiteWithAssertion]
        exact Or.inr hp
    · have hfu : ¬ f = u := fun hc => huf hc.symm
      refine ⟨A, B, ?_, fun p hp => hp, fun p hp => hp⟩
      rw [hM, lookupVal_mapInsert, if_neg htu, lookupVal_mapInsert, if_neg hfu, humB]

/-- A successful `StoreImplication` records the new pair on both sides. -/
theorem storeImplication_adds (i i' : InferredMap) (f t : primitiveSite)
    (a : primitiveFullTrigger) (h : StoreImplication i f t a = some i') :
    (∃ A B, lookupVal i'.mapping f = some (.UndeterminedVal A B) ∧ (t, a) ∈ A) ∧
    (∃ C D, lookupVal i'.mapping t = some (.UndeterminedVal C D) ∧ (f, a) ∈ D) := by
  obtain ⟨-, A0, B0, C0, D0, hF, hT, hM⟩ := storeImplication_some_spec i f t a i' h
  constructor
  · by_cases hft : f = t
    · subst hft
      rw [lookupVal_mapInsert, if_pos rfl] at hT
      injection hT with hT
      injection hT with hT1 hT2
      subst hT1
      subst hT2
      refine ⟨addSiteWithAssertion A0 f a, addSiteWithAssertion B0 f a, ?_, ?_⟩
      · rw [hM, lookupVal_mapInsert, if_pos rfl]
      · rw [mem_addSiteWithAssertion]
        exact Or.inl rfl
    · have htf : ¬ t = f := fun hc => hft hc.symm
      refine ⟨addSiteWithAssertion A0 t a, B0, ?_, ?_⟩
      · rw [hM, lookupVal_mapInsert, if_neg htf, lookupVal_mapInsert, if_pos rfl]
      · rw [mem_addSiteWithAssertion]
        exact Or.inl rfl
  · refine ⟨C0, addSiteWithAssertion D0 f a, ?_, ?_⟩
    · rw [hM, lookupVal_mapInsert, if_pos rfl]
    · rw [mem_addSiteWithAssertion]
      exact Or.inl rfl

/-- Re-recording an already present edge pair is a no-op. -/
theorem storeImplication_self (i : InferredMap) (u v : primitiveSite)
    (t : primitiveFullTrigger) (A B C D : sitesWithAssertions)
    (hA : lookupVal i.mapping u = some (.UndeterminedVal A B)) (hvA : (v, t) ∈ A)
    (hC : lookupVal i.mapping v = some (.UndeterminedVal C D)) (huD : (u, t) ∈ D) :
    StoreImplication i u v t = some i := by
  unfold StoreImplication
  rw [ensureSite_some _ _ _ hA, ensureSite_some _ _ _ hC]
  simp only [hA, addSiteWithAssertion_of_mem _ _ _ hvA, mapInsert_self _ _ _ hA, hC,
    addSiteWithAssertion_of_mem _ _ _ huD, mapInsert_self _ _ _ hC]

/-! ### C5, C7, C8 -/

/-- C5: decoding the bytes produced by encoding any map yields a map whose
`mapping` equals the original entry for entry — same sites, same variant
tags, same determined explanations, same edge sets with their triggers —
while the decoded map's `upstreamMapping` is a separate freshly initialized
empty container. -/
theorem gob_encode_decode_roundtrip (i : InferredMap) :
    GobDecode (GobEncode i) = some { upstreamMapping := [], mapping := i.mapping } :=
  gobDecode_gobEncode i

/-- C7: storing the same edge twice with distinct triggers keeps both
triggers on both the `Implicates` and the `Implicants` side, and an
encode/decode round-trip preserves the whole mapping (hence both
triggers). -/
theorem storeImplication_trigger_multiplicity (i i1 i2 : InferredMap)
    (u v : primitiveSite) (t1 t2 : primitiveFullTrigger) (hne : t1 ≠ t2)
    (h1 : StoreImplication i u v t1 = some i1)
    (h2 : StoreImplication i1 u v t2 = some i2) :
    (∃ A B, lookupVal i2.mapping u = some (.UndeterminedVal A B) ∧
      (v, t1) ∈ A ∧ (v, t2) ∈ A) ∧
    (∃ C D, lookupVal i2.mapping v = some (.UndeterminedVal C D) ∧
      (u, t1) ∈ D ∧ (u, t2) ∈ D) ∧
    GobDecode (GobEncode i2) = some { upstreamMapping := [], mapping := i2.mapping } := by
  obtain ⟨⟨A1, B1, hu1, hvt1⟩, ⟨C1, D1, hv1, hut1⟩⟩ := storeImplication_adds i i1 u v t1 h1
  obtain ⟨⟨A2, B2, hu2, hvt2⟩, ⟨C2, D2, hv2, hut2⟩⟩ := storeImplication_adds i1 i2 u v t2 h2
  have hmono := storeImplication_mono i1 i2 u v t2 h2
  obtain ⟨A2', B2', hu2', hsubA, -⟩ := hmono u A1 B1 hu1
  obtain ⟨C2', D2', hv2', -, hsubD⟩ := hmono v C1 D1 hv1
  rw [hu2] at hu2'
  injection hu2' with e1
  injection e1 with eA eB
  rw [hv2] at hv2'
  injection hv2' with e2
  injection e2 with eC eD
  refine ⟨⟨A2, B2, hu2, ?_, hvt2⟩, ⟨C2, D2, hv2, ?_, hut2⟩, gobDecode_gobEncode i2⟩
  · rw [eA]
    exact hsubA _ hvt1
  · rw [eD]
    exact hsubD _ hut1

/-- C7 witness: on the empty map, two stores of the same edge with triggers
0 and 1 leave both triggers on both sides, and the round-trip preserves the
mapping. -/
theorem storeImplication_trigger_multiplicity_witness :
    (∃ A B, lookupVal
        [({ key := 0, deep := false, exported := false },
          InferredVal.UndeterminedVal
            [({ key := 1, deep := false, exported := false }, 1),
             ({ key := 1, deep := false, exported := false }, 0)] []),
         ({ key := 1, deep := false, exported := false },
          InferredVal.UndeterminedVal []
            [({ key := 0, deep := false, exported := false }, 1),
             ({ key := 0, deep := false, exported := false }, 0)])]
        { key := 0, deep := false, exported := false } = some (.UndeterminedVal A B) ∧
      ({ key := 1, deep := false, exported := false }, 0) ∈ A ∧
      ({ key := 1, deep := false, exported := false }, 1) ∈ A) ∧
    (∃ C D, lookupVal
        [({ key := 0, deep := false, exported := false },
          InferredVal.UndeterminedVal
            [({ key := 1, deep := false, exported := false }, 1),
             ({ key := 1, deep := false, exported := false }, 0)] []),
         ({ key := 1, deep := false, exported := false },
          InferredVal.UndeterminedVal []
            [({ key := 0, deep := false, exported := false }, 1),
             ({ key := 0, deep := false, exported := false }, 0)])]
        { key := 1, deep := false, exported := false } = some (.UndeterminedVal C D) ∧
      ({ key := 0, deep := false, exported := false }, 0) ∈ D ∧
      ({ key := 0, deep := false, exported := false }, 1) ∈ D) ∧
    GobDecode (GobEncode
      { upstreamMapping := [],
        mapping :=
          [({ key := 0, deep := false, exported := false },
            InferredVal.UndeterminedVal
              [({ key := 1, deep := false, exported := false }, 1),
               ({ key := 1, deep := false, exported := false }, 0)] []),
           ({ key := 1, deep := false, exported := false },
            InferredVal.UndeterminedVal []
              [({ key := 0, deep := false, exported := false }, 1),
               ({ key := 0, deep := false, exported := false }, 0)])] }) =
      some { upstreamMapping := [],
             mapping :=
               [({ key := 0, deep := false, exported := false },
                 InferredVal.UndeterminedVal
                   [({ key := 1, deep := false, exported := false }, 1),
                    ({ key := 1, deep := false, exported := false }, 0)] []),
                ({ key := 1, deep := false, exported := false },
                 InferredVal.UndeterminedVal []
                   [({ key := 0, deep := false, exported := false }, 1),
                    ({ key := 0, deep := false, exported := false }, 0)])] } :=
  storeImplication_trigger_multiplicity newInferredMap
    { upstreamMapping := [],
      mapping :=
        [({ key := 0, deep := false, exported := false },
          InferredVal.UndeterminedVal [({ key := 1, deep := false, exported := false }, 0)] []),
         ({ key := 1, deep := false, exported := false },
          InferredVal.UndeterminedVal [] [({ key := 0, deep := false, exported := false }, 0)])] }
    { upstreamMapping := [],
      mapping :=
        [({ key := 0, deep := false, exported := false },
          InferredVal.UndeterminedVal
            [({ key := 1, deep := false, exported := false }, 1),
             ({ key := 1, deep := false, exported := false }, 0)] []),
         ({ key := 1, deep := false, exported := false },
          InferredVal.UndeterminedVal []
            [({ key := 0, deep := false, exported := false }, 1),
             ({ key := 0, deep := false, exported := false }, 0)])] }
    { key := 0, deep := false, exported := false }
    { key := 1, deep := false, exported := false } 0 1
    (by decide) (by decide) (by decide)

/-- C8: storing the identical edge triple twice yields the same map as
storing it once; and from a state where both endpoints were absent the
single call leaves exactly one neighbor entry on each side, carrying the
single trigger. -/
theorem storeImplication_idempotent (i i1 i2 : InferredMap) (u v : primitiveSite)
    (t : primitiveFullTrigger)
    (h1 : StoreImplication i u v t = some i1)
    (h2 : StoreImplication i1 u v t = some i2) :
    i2 = i1 ∧
    (lookupVal i.mapping u = none → lookupVal i.mapping v = none → ¬ u = v →
      lookupVal i1.mapping u = some (.UndeterminedVal [(v, t)] []) ∧
      lookupVal i1.mapping v = some (.UndeterminedVal [] [(u, t)])) := by
  obtain ⟨⟨A1, B1, hu1, hvt1⟩, ⟨C1, D1, hv1, hut1⟩⟩ := storeImplication_adds i i1 u v t h1
  have hself : StoreImplication i1 u v t = some i1 :=
    storeImplication_self i1 u v t A1 B1 C1 D1 hu1 hvt1 hv1 hut1
  rw [hself] at h2
  injection h2 with h2
  refine ⟨h2.symm, ?_⟩
  intro hnu hnv huv
  have hvu : ¬ v = u := fun hc => huv hc.symm
  obtain ⟨-, A0, B0, C0, D0, hF, hT, hM⟩ := storeImplication_some_spec i u v t i1 h1
  have e1 : ensureSite i.mapping u =
      mapInsert i.mapping u (.UndeterminedVal newSitesWithAssertions newSitesWithAssertions) :=
    ensureSite_none _ _ hnu
  have hl1 : lookupVal (ensureSite i.mapping u) v = none := by
    rw [e1, lookupVal_mapInsert, if_neg huv, hnv]
  have e2 : ensureSite (ensureSite i.mapping u) v =
      mapInsert (ensureSite i.mapping u) v
        (.UndeterminedVal newSitesWithAssertions newSitesWithAssertions) :=
    ensureSite_none _ _ hl1
  have hmBu : lookupVal (ensureSite (ensureSite i.mapping u) v) u =
      some (.UndeterminedVal newSitesWithAssertions newSitesWithAssertions) := by
    rw [e2, lookupVal_mapInsert, if_neg hvu, e1, lookupVal_mapInsert, if_pos rfl]
  rw [hmBu] at hF
  injection hF with hF
  injection hF with g1 g2
  subst g1
  subst g2
  have hmBv : lookupVal (ensureSite (ensureSite i.mapping u) v) v =
      some (.UndeterminedVal newSitesWithAssertions newSitesWithAssertions) := by
    rw [e2, lookupVal_mapInsert, if_pos rfl]
  have hT2 : lookupVal (mapInsert (ensureSite (ensureSite i.mapping u) v) u
      (.UndeterminedVal (addSiteWithAssertion newSitesWithAssertions v t)
        newSitesWithAssertions)) v =
      some (.UndeterminedVal newSitesWithAssertions newSitesWithAssertions) := by
    rw [lookupVal_mapInsert, if_neg huv, hmBv]
  rw [hT2] at hT
  injection hT with hT
  injection hT with g3 g4
  subst g3
  subst g4
  constructor
  · rw [hM, lookupVal_mapInsert, if_neg hvu, lookupVal_mapInsert, if_pos rfl]
    simp [addSiteWithAssertion, newSitesWithAssertions]
  · rw [hM, lookupVal_mapInsert, if_pos rfl]
    simp [addSiteWithAssertion, newSitesWithAssertions]

/-- C8 witness: on the empty map, storing the edge (u, v, 0) twice equals
storing it once, with exactly one neighbor entry and one trigger per side. -/
theorem storeImplication_idempotent_witness :
    ({ upstreamMapping := [],
       mapping :=
         [({ key := 0, deep := false, exported := false },
           InferredVal.UndeterminedVal [({ key := 1, deep := false, exported := false }, 0)] []),
          ({ key := 1, deep := false, exported := false },
           InferredVal.UndeterminedVal [] [({ key := 0, deep := false, exported := false }, 0)])] }
      : InferredMap) =
      { upstreamMapping := [],
        mapping :=
          [({ key := 0, deep := false, exported := false },
            InferredVal.UndeterminedVal [({ key := 1, deep := false, exported := false }, 0)] []),
           ({ key := 1, deep := false, exported := false },
            InferredVal.UndeterminedVal [] [({ key := 0, deep := false, exported := false }, 0)])] } ∧
    (lookupVal
        [({ key := 0, deep := false, exported := false },
          InferredVal.UndeterminedVal [({ key := 1, deep := false, exported := false }, 0)] []),
         ({ key := 1, deep := false, exported := false },
          InferredVal.UndeterminedVal [] [({ key := 0, deep := false, exported := false }, 0)])]
        { key := 0, deep := false, exported := false } =
        some (.UndeterminedVal [({ key := 1, deep := false, exported := false }, 0)] []) ∧
      lookupVal
        [({ key := 0, deep := false, exported := false },
          InferredVal.UndeterminedVal [({ key := 1, deep := false, exported := false }, 0)] []),
         ({ key := 1, deep := false, exported := false },
          InferredVal.UndeterminedVal [] [({ key := 0, deep := false, exported := false }, 0)])]
        { key := 1, deep := false, exported := false } =
        some (.UndeterminedVal [] [({ key := 0, deep := false, exported := false }, 0)])) :=
  ⟨(storeImplication_idempotent newInferredMap
      { upstreamMapping := [],
        mapping :=
          [({ key := 0, deep := false, exported := false },
            InferredVal.UndeterminedVal [({ key := 1, deep := false, exported := false }, 0)] []),
           ({ key := 1, deep := false, exported := false },
            InferredVal.UndeterminedVal [] [({ key := 0, deep := false, exported := false }, 0)])] }
      { upstreamMapping := [],
        mapping :=
          [({ key := 0, deep := false, exported := false },
            InferredVal.UndeterminedVal [({ key := 1, deep := false, exported := false }, 0)] []),
           ({ key := 1, deep := false, exported := false },
            InferredVal.UndeterminedVal [] [({ key := 0, deep := false, exported := false }, 0)])] }
      { key := 0, deep := false, exported := false }
      { key := 1, deep := false, exported := false } 0
      (by decide) (by decide)).1,
   (storeImplication_idempotent newInferredMap
      { upstreamMapping := [],
        mapping :=
          [({ key := 0, deep := false, exported := false },
            InferredVal.UndeterminedVal [({ key := 1, deep := false, exported := false }, 0)] []),
           ({ key := 1, deep := false, exported := false },
            InferredVal.UndeterminedVal [] [({ key := 0, deep := false, exported := false }, 0)])] }
      { upstreamMapping := [],
        mapping :=
          [({ key := 0, deep := false, exported := false },
            InferredVal.UndeterminedVal [({ key := 1, deep := false, exported := false }, 0)] []),
           ({ key := 1, deep := false, exported := false },
            InferredVal.UndeterminedVal [] [({ key := 0, deep := false, exported := false }, 0)])] }
      { key := 0, deep := false, exported := false }
      { key := 1, deep := false, exported := false } 0
      (by decide) (by decide)).2 (by decide) (by decide) (by decide)⟩

/-! ### C3 and C10: export diffing and export frame -/

theorem inferredValDiff_self (v : InferredVal) : inferredValDiff v v = none := by
  cases v with
  | DeterminedVal b => rfl
  | UndeterminedVal A B => simp [inferredValDiff, List.filter_eq_nil_iff]

/-- C3: replaying an upstream payload identically into both `mapping` and
`upstreamMapping` and exporting without any local mutation emits nothing,
because every selected site's diff against the upstream value is empty. -/
theorem export_after_replay_emits_nothing (i : InferredMap)
    (hrep : i.upstreamMapping = i.mapping)
    (hnd : (i.mapping.map Prod.fst).Nodup) :
    (Export i).2 = none := by
  unfold Export
  split
  · rfl
  · have hexp : i.mapping.filterMap (exportEntry i (chooseSitesToExport i.mapping)) = [] := by
      apply List.filterMap_eq_nil_iff.mpr
      intro sv hsv
      have hlook : lookupVal i.mapping sv.1 = some sv.2 := lookup_of_mem_nodup _ _ hnd hsv
      have hlookU : lookupVal i.upstreamMapping sv.1 = some sv.2 := by
        rw [hrep]; exact hlook
      by_cases hmem : sv.1 ∈ chooseSitesToExport i.mapping
      · simp [exportEntry, hmem, hlookU, inferredValDiff_self]
      · simp [exportEntry, hmem]
    simp [hexp]

/-- C3 witness: a concrete two-entry map replayed into both sides exports
nothing. -/
theorem export_after_replay_emits_nothing_witness :
    (Export
      { upstreamMapping :=
          [({ key := 0, deep := false, exported := true },
            InferredVal.UndeterminedVal [({ key := 1, deep := false, exported := true }, 0)] []),
           ({ key := 1, deep := false, exported := true },
            InferredVal.UndeterminedVal [] [({ key := 0, deep := false, exported := true }, 0)])],
        mapping :=
          [({ key := 0, deep := false, exported := true },
            InferredVal.UndeterminedVal [({ key := 1, deep := false, exported := true }, 0)] []),
           ({ key := 1, deep := false, exported := true },
            InferredVal.UndeterminedVal [] [({ key := 0, deep := false, exported := true }, 0)])] }).2
      = none :=
  export_after_replay_emits_nothing _ rfl (by decide)

/-- C10: `Export` does not mutate the receiver — the live mapping and the
upstream snapshot after the call are exactly the receiver's — and any
emitted fact is a freshly constructed map whose upstream container is the
fresh empty one from `newInferredMap`. -/
theorem export_does_not_mutate_receiver (i : InferredMap) :
    (Export i).1 = i ∧
    (∀ f, (Export i).2 = some f → f.upstreamMapping = []) := by
  unfold Export
  split
  · exact ⟨rfl, fun f h => by cases h⟩
  · constructor
    · by_cases hc :
        0 < (i.mapping.filterMap (exportEntry i (chooseSitesToExport i.mapping))).length <;>
        simp [hc]
    · intro f h
      by_cases hc :
        0 < (i.mapping.filterMap (exportEntry i (chooseSitesToExport i.mapping))).length
      · simp only [hc, if_true] at h
        injection h with h
        rw [← h]
        rfl
      · simp [hc] at h

/-- C10 witness: on a concrete map that does emit a fact, the receiver is
returned unchanged and the emitted fact's upstream container is empty. -/
theorem export_does_not_mutate_receiver_witness :
    (Export
      { upstreamMapping := [],
        mapping :=
          [({ key := 0, deep := false, exported := true },
            InferredVal.UndeterminedVal [({ key := 1, deep := false, exported := false }, 7)] []),
           ({ key := 1, deep := false, exported := false },
            InferredVal.UndeterminedVal [] [({ key := 0, deep := false, exported := true }, 7)])] }).1 =
      { upstreamMapping := [],
        mapping :=
          [({ key := 0, deep := false, exported := true },
            InferredVal.UndeterminedVal [({ key := 1, deep := false, exported := false }, 7)] []),
           ({ key := 1, deep := false, exported := false },
            InferredVal.UndeterminedVal [] [({ key := 0, deep := false, exported := true }, 7)])] } ∧
    InferredMap.upstreamMapping
      { upstreamMapping := [],
        mapping :=
          [({ key := 0, deep := false, exported := true },
            InferredVal.UndeterminedVal [({ key := 1, deep := false, exported := false }, 7)] [])] } = [] :=
  ⟨(export_does_not_mutate_receiver _).1,
   (export_does_not_mutate_receiver
      { upstreamMapping := [],
        mapping :=
          [({ key := 0, deep := false, exported := true },
            InferredVal.UndeterminedVal [({ key := 1, deep := false, exported := false }, 7)] []),
           ({ key := 1, deep := false, exported := false },
            InferredVal.UndeterminedVal [] [({ key := 0, deep := false, exported := true }, 7)])] }).2
     _ (by decide)⟩

/-! ### C4: edge symmetry under mutation sequences -/

/-- C4 counterexample: after `store_implication(u, v, t)` followed by
`store_determined(u, b)` — a legal mutation sequence from the empty map —
`u` is in `v`'s `Implicants` but `v` is no longer in `u`'s `Implicates`
(`u` now holds a `DeterminedVal`), so the claimed symmetry over all
mutation sequences fails. -/
theorem edge_symmetry_cex :
    ¬ (∀ i : InferredMap, Reaches i → ∀ u v : primitiveSite, ∀ t : primitiveFullTrigger,
        ((∃ A B, lookupVal i.mapping u = some (.UndeterminedVal A B) ∧ (v, t) ∈ A) ↔
         (∃ C D, lookupVal i.mapping v = some (.UndeterminedVal C D) ∧ (u, t) ∈ D))) := by
  intro h
  have h1 : StoreImplication newInferredMap { key := 0, deep := false, exported := false }
      { key := 1, deep := false, exported := false } 5 =
      some { upstreamMapping := [],
             mapping :=
               [({ key := 0, deep := false, exported := false },
                 InferredVal.UndeterminedVal
                   [({ key := 1, deep := false, exported := false }, 5)] []),
                ({ key := 1, deep := false, exported := false },
                 InferredVal.UndeterminedVal []
                   [({ key := 0, deep := false, exported := false }, 5)])] } := by decide
  have hr : Reaches (StoreDetermined
      { upstreamMapping := [],
        mapping :=
          [({ key := 0, deep := false, exported := false },
            InferredVal.UndeterminedVal
              [({ key := 1, deep := false, exported := false }, 5)] []),
           ({ key := 1, deep := false, exported := false },
            InferredVal.UndeterminedVal []
              [({ key := 0, deep := false, exported := false }, 5)])] }
      { key := 0, deep := false, exported := false } { Val := true, expl := 0 }) :=
    Reaches.det _ _ (Reaches.impl _ _ _ Reaches.empty h1)
  have hiff := h _ hr { key := 0, deep := false, exported := false }
    { key := 1, deep := false, exported := false } 5
  obtain ⟨A, B, hAB, -⟩ := hiff.mpr
    ⟨[], [({ key := 0, deep := false, exported := false }, 5)], by decide, by decide⟩
  have hdet : lookupVal (StoreDetermined
      { upstreamMapping := [],
        mapping :=
          [({ key := 0, deep := false, exported := false },
            InferredVal.UndeterminedVal
              [({ key := 1, deep := false, exported := false }, 5)] []),
           ({ key := 1, deep := false, exported := false },
            InferredVal.UndeterminedVal []
              [({ key := 0, deep := false, exported := false }, 5)])] }
      { key := 0, deep := false, exported := false } { Val := true, expl := 0 }).mapping
      { key := 0, deep := false, exported := false } =
      some (.DeterminedVal { Val := true, expl := 0 }) := by decide
  rw [hdet] at hAB
  cases hAB

theorem ensureSite_preserves_symm (m : Mapping) (s : primitiveSite)
    (h1 : ∀ u v t A B C D, lookupVal m u = some (.UndeterminedVal A B) →
      lookupVal m v = some (.UndeterminedVal C D) → ((v, t) ∈ A ↔ (u, t) ∈ D))
    (h2 : ∀ u A B, lookupVal m u = some (.UndeterminedVal A B) →
      ∀ p : primitiveSite × primitiveFullTrigger, p ∈ A ∨ p ∈ B →
      ∃ w, lookupVal m p.1 = some w) :
    (∀ u v t A B C D, lookupVal (ensureSite m s) u = some (.UndeterminedVal A B) →
      lookupVal (ensureSite m s) v = some (.UndeterminedVal C D) → ((v, t) ∈ A ↔ (u, t) ∈ D)) ∧
    (∀ u A B, lookupVal (ensureSite m s) u = some (.UndeterminedVal A B) →
      ∀ p : primitiveSite × primitiveFullTrigger, p ∈ A ∨ p ∈ B →
      ∃ w, lookupVal (ensureSite m s) p.1 = some w) := by
  rcases hs : lookupVal m s with _ | w
  · rw [ensureSite_none _ _ hs]
    constructor
    · intro u v t A B C D hu hv
      rw [lookupVal_mapInsert] at hu hv
      by_cases hsu : s = u
      · rw [if_pos hsu] at hu
        injection hu with hu
        injection hu with huA huB
        subst huA
        by_cases hsv : s = v
        · rw [if_pos hsv] at hv
          injection hv with hv
          injection hv with hvC hvD
          subst hvD
          simp [newSitesWithAssertions]
        · rw [if_neg hsv] at hv
          constructor
          · intro hmem
            simp [newSitesWithAssertions] at hmem
          · intro hmem
            obtain ⟨w', hw'⟩ := h2 v C D hv (u, t) (Or.inr hmem)
            dsimp only at hw'
            rw [hsu] at hs
            rw [hs] at hw'
            cases hw'
      · rw [if_neg hsu] at hu
        by_cases hsv : s = v
        · rw [if_pos hsv] at hv
          injection hv with hv
          injection hv with hvC hvD
          subst hvD
          constructor
          · intro hmem
            obtain ⟨w', hw'⟩ := h2 u A B hu (v, t) (Or.inl hmem)
            dsimp only at hw'
            rw [hsv] at hs
            rw [hs] at hw'
            cases hw'
          · intro hmem
            simp [newSitesWithAssertions] at hmem
        · rw [if_neg hsv] at hv
          exact h1 u v t A B C D hu hv
    · intro u A B hu p hp
      rw [lookupVal_mapInsert] at hu
      by_cases hsu : s = u
      · rw [if_pos hsu] at hu
        injection hu with hu
        injection hu with huA huB
        subst huA
        subst huB
        simp [newSitesWithAssertions] at hp
      · rw [if_neg hsu] at hu
        obtain ⟨w', hw'⟩ := h2 u A B hu p hp
        by_cases hsp : s = p.1
        · exact ⟨_, by rw [lookupVal_mapInsert, if_pos hsp]⟩
        · exact ⟨w', by rw [lookupVal_mapInsert, if_neg hsp]; exact hw'⟩
  · rw [ensureSite_some _ _ _ hs]
    exact ⟨h1, h2⟩

theorem storeDetermined_preserves_symm (i : InferredMap) (site : primitiveSite)
    (value : ExplainedBool)
    (h1 : ∀ u v t A B C D, lookupVal i.mapping u = some (.UndeterminedVal A B) →
      lookupVal i.mapping v = some (.UndeterminedVal C D) → ((v, t) ∈ A ↔ (u, t) ∈ D))
    (h2 : ∀ u A B, lookupVal i.mapping u = some (.UndeterminedVal A B) →
      ∀ p : primitiveSite × primitiveFullTrigger, p ∈ A ∨ p ∈ B →
      ∃ w, lookupVal i.mapping p.1 = some w) :
    (∀ u v t A B C D,
      lookupVal (StoreDetermined i site value).mapping u = some (.UndeterminedVal A B) →
      lookupVal (StoreDetermined i site value).mapping v = some (.UndeterminedVal C D) →
      ((v, t) ∈ A ↔ (u, t) ∈ D)) ∧
    (∀ u A B, lookupVal (StoreDetermined i site value).mapping u = some (.UndeterminedVal A B) →
      ∀ p : primitiveSite × primitiveFullTrigger, p ∈ A ∨ p ∈ B →
      ∃ w, lookupVal (StoreDetermined i site value).mapping p.1 = some w) := by
  constructor
  · intro u v t A B C D hu hv
    simp only [StoreDetermined] at hu hv
    rw [lookupVal_mapInsert] at hu hv
    by_cases hsu : site = u
    · rw [if_pos hsu] at hu
      cases hu
    · rw [if_neg hsu] at hu
      by_cases hsv : site = v
      · rw [if_pos hsv] at hv
        cases hv
      · rw [if_neg hsv] at hv
        exact h1 u v t A B C D hu hv
  · intro u A B hu p hp
    simp only [StoreDetermined] at hu ⊢
    rw [lookupVal_mapInsert] at hu
    by_cases hsu : site = u
    · rw [if_pos hsu] at hu
      cases hu
    · rw [if_neg hsu] at hu
      obtain ⟨w, hw⟩ := h2 u A B hu p hp
      by_cases hsp : site = p.1
      · exact ⟨_, by rw [lookupVal_mapInsert, if_pos hsp]⟩
      · exact ⟨w, by rw [lookupVal_mapInsert, if_neg hsp]; exact hw⟩

theorem storeImplication_preserves_symm (i i' : InferredMap) (fS tS : primitiveSite)
    (asrt : primitiveFullTrigger) (heq : StoreImplication i fS tS asrt = some i')
    (h1 : ∀ u v t A B C D, lookupVal i.mapping u = some (.UndeterminedVal A B) →
      lookupVal i.mapping v = some (.UndeterminedVal C D) → ((v, t) ∈ A ↔ (u, t) ∈ D))
    (h2 : ∀ u A B, lookupVal i.mapping u = some (.UndeterminedVal A B) →
      ∀ p : primitiveSite × primitiveFullTrigger, p ∈ A ∨ p ∈ B →
      ∃ w, lookupVal i.mapping p.1 = some w) :
    (∀ u v t A B C D, lookupVal i'.mapping u = some (.UndeterminedVal A B) →
      lookupVal i'.mapping v = some (.UndeterminedVal C D) → ((v, t) ∈ A ↔ (u, t) ∈ D)) ∧
    (∀ u A B, lookupVal i'.mapping u = some (.UndeterminedVal A B) →
      ∀ p : primitiveSite × primitiveFullTrigger, p ∈ A ∨ p ∈ B →
      ∃ w, lookupVal i'.mapping p.1 = some w) := by
  obtain ⟨hens1, hens2⟩ := ensureSite_preserves_symm i.mapping fS h1 h2
  obtain ⟨hmB1, hmB2⟩ := ensureSite_preserves_symm (ensureSite i.mapping fS) tS hens1 hens2
  obtain ⟨-, A0, B0, C0, D0, hF, hT, hM⟩ := storeImplication_some_spec i fS tS asrt i' heq
  by_cases hft : fS = tS
  · -- self-loop: the two inserts hit the same entry
    subst hft
    rw [lookupVal_mapInsert, if_pos rfl] at hT
    injection hT with hT
    injection hT with hTC hTD
    subst hTC
    subst hTD
    constructor
    · intro u v t' A B C D hu hv
      rw [hM, lookupVal_mapInsert, lookupVal_mapInsert] at hu hv
      by_cases hfu : fS = u
      · subst hfu
        rw [if_pos rfl] at hu
        injection hu with hu
        injection hu with huA huB
        subst huA
        subst huB
        by_cases hfv : fS = v
        · subst hfv
          rw [if_pos rfl] at hv
          injection hv with hv
          injection hv with hvC hvD
          subst hvC
          subst hvD
          rw [mem_addSiteWithAssertion, mem_addSiteWithAssertion]
          simp only [Prod.mk.injEq, true_and]
          exact or_congr Iff.rfl (hmB1 fS fS t' A0 B0 A0 B0 hF hF)
        · rw [if_neg hfv, if_neg hfv] at hv
          have hbase := hmB1 fS v t' A0 B0 C D hF hv
          rw [mem_addSiteWithAssertion]
          constructor
          · rintro (heq2 | h)
            · exfalso
              rw [Prod.mk.injEq] at heq2
              exact hfv heq2.1.symm
            · exact hbase.mp h
          · intro h
            exact Or.inr (hbase.mpr h)
      · rw [if_neg hfu, if_neg hfu] at hu
        by_cases hfv : fS = v
        · subst hfv
          rw [if_pos rfl] at hv
          injection hv with hv
          injection hv with hvC hvD
          subst hvC
          subst hvD
          have hbase := hmB1 u fS t' A B A0 B0 hu hF
          rw [mem_addSiteWithAssertion]
          constructor
          · intro h
            exact Or.inr (hbase.mp h)
          · rintro (heq2 | h)
            · exfalso
              rw [Prod.mk.injEq] at heq2
              exact hfu heq2.1.symm
            · exact hbase.mpr h
        · rw [if_neg hfv, if_neg hfv] at hv
          exact hmB1 u v t' A B C D hu hv
    · intro u A B hu p hp
      rw [hM, lookupVal_mapInsert, lookupVal_mapInsert] at hu
      rw [hM]
      by_cases hfp : fS = p.1
      · exact ⟨_, by rw [lookupVal_mapInsert, if_pos hfp]⟩
      · have hmem : ∃ w, lookupVal (ensureSite (ensureSite i.mapping fS) fS) p.1 = some w := by
          by_cases hfu : fS = u
          · subst hfu
            rw [if_pos rfl] at hu
            injection hu with hu
            injection hu with huA huB
            subst huA
            subst huB
            rcases hp with hp | hp
            · rw [mem_addSiteWithAssertion] at hp
              rcases hp with heq2 | hp
              · exfalso
                rw [heq2] at hfp
                exact hfp rfl
              · exact hmB2 fS A0 B0 hF p (Or.inl hp)
            · rw [mem_addSiteWithAssertion] at hp
              rcases hp with heq2 | hp
              · exfalso
                rw [heq2] at hfp
                exact hfp rfl
              · exact hmB2 fS A0 B0 hF p (Or.inr hp)
          · rw [if_neg hfu, if_neg hfu] at hu
            exact hmB2 u A B hu p hp
        obtain ⟨w, hw⟩ := hmem
        exact ⟨w, by rw [lookupVal_mapInsert, if_neg hfp, lookupVal_mapInsert, if_neg hfp]
                     exact hw⟩
  · -- distinct endpoints
    have htf : ¬ tS = fS := fun hc => hft hc.symm
    rw [lookupVal_mapInsert, if_neg hft] at hT
    constructor
    · intro u v t' A B C D hu hv
      rw [hM, lookupVal_mapInsert, lookupVal_mapInsert] at hu hv
      by_cases htu : tS = u
      · subst htu
        rw [if_pos rfl] at hu
        injection hu with hu
        injection hu with huA huB
        subst huA
        subst huB
        by_cases htv : tS = v
        · subst htv
          rw [if_pos rfl] at hv
          injection hv with hv
          injection hv with hvC hvD
          subst hvC
          subst hvD
          have hbase := hmB1 tS tS t' C0 D0 C0 D0 hT hT
          rw [mem_addSiteWithAssertion]
          constructor
          · intro h
            exact Or.inr (hbase.mp h)
          · rintro (heq2 | h)
            · exfalso
              rw [Prod.mk.injEq] at heq2
              exact hft heq2.1.symm
            · exact hbase.mpr h
        · by_cases hfv : fS = v
          · subst hfv
            rw [if_neg htf, if_pos rfl] at hv
            injection hv with hv
            injection hv with hvC hvD
            subst hvC
            subst hvD
            exact hmB1 tS fS t' C0 D0 A0 B0 hT hF
          · rw [if_neg htv, if_neg hfv] at hv
            exact hmB1 tS v t' C0 D0 C D hT hv
      · by_cases hfu : fS = u
        · subst hfu
          rw [if_neg htf, if_pos rfl] at hu
          injection hu with hu
          injection hu with huA huB
          subst huA
          subst huB
          by_cases htv : tS = v
          · subst htv
            rw [if_pos rfl] at hv
            injection hv with hv
            injection hv with hvC hvD
            subst hvC
            subst hvD
            have hbase := hmB1 fS tS t' A0 B0 C0 D0 hF hT
            rw [mem_addSiteWithAssertion, mem_addSiteWithAssertion]
            simp only [Prod.mk.injEq, true_and]
            exact or_congr Iff.rfl hbase
          · by_cases hfv : fS = v
            · subst hfv
              rw [if_neg htf, if_pos rfl] at hv
              injection hv with hv
              injection hv with hvC hvD
              subst hvC
              subst hvD
              have hbase := hmB1 fS fS t' A0 B0 A0 B0 hF hF
              rw [mem_addSiteWithAssertion]
              constructor
              · rintro (heq2 | h)
                · exfalso
                  rw [Prod.mk.injEq] at heq2
                  exact htv heq2.1.symm
                · exact hbase.mp h
              · intro h
                exact Or.inr (hbase.mpr h)
            · rw [if_neg htv, if_neg hfv] at hv
              have hbase := hmB1 fS v t' A0 B0 C D hF hv
              rw [mem_addSiteWithAssertion]
              constructor
              · rintro (heq2 | h)
                · exfalso
                  rw [Prod.mk.injEq] at heq2
                  exact htv heq2.1.symm
                · exact hbase.mp h
              · intro h
                exact Or.inr (hbase.mpr h)
        · rw [if_neg htu, if_neg hfu] at hu
          by_cases htv : tS = v
          · subst htv
            rw [if_pos rfl] at hv
            injection hv with hv
            injection hv with hvC hvD
            subst hvC
            subst hvD
            have hbase := hmB1 u tS t' A B C0 D0 hu hT
            rw [mem_addSiteWithAssertion]
            constructor
            · intro h
              exact Or.inr (hbase.mp h)
            · rintro (heq2 | h)
              · exfalso
                rw [Prod.mk.injEq] at heq2
                exact hfu heq2.1.symm
              · exact hbase.mpr h
          · by_cases hfv : fS = v
            · subst hfv
              rw [if_neg htf, if_pos rfl] at hv
              injection hv with hv
              injection hv with hvC hvD
              subst hvC
              subst hvD
              exact hmB1 u fS t' A B A0 B0 hu hF
            · rw [if_neg htv, if_neg hfv] at hv
              exact hmB1 u v t' A B C D hu hv
    · intro u A B hu p hp
      rw [hM, lookupVal_mapInsert, lookupVal_mapInsert] at hu
      rw [hM]
      by_cases htp : tS = p.1
      · exact ⟨_, by rw [lookupVal_mapInsert, if_pos htp]⟩
      · by_cases hfp : fS = p.1
        · exact ⟨_, by rw [lookupVal_mapInsert, if_neg htp, lookupVal_mapInsert, if_pos hfp]⟩
        · have hmem : ∃ w, lookupVal (ensureSite (ensureSite i.mapping fS) tS) p.1 = some w := by
            by_cases htu : tS = u
            · subst htu
              rw [if_pos rfl] at hu
              injection hu with hu
              injection hu with huA huB
              subst huA
              subst huB
              rcases hp with hp | hp
              · exact hmB2 tS C0 D0 hT p (Or.inl hp)
              · rw [mem_addSiteWithAssertion] at hp
                rcases hp with heq2 | hp
                · exfalso
                  rw [heq2] at hfp
                  exact hfp rfl
                · exact hmB2 tS C0 D0 hT p (Or.inr hp)
            · by_cases hfu : fS = u
              · subst hfu
                rw [if_neg htf, if_pos rfl] at hu
                injection hu with hu
                injection hu with huA huB
                subst huA
                subst huB
                rcases hp with hp | hp
                · rw [mem_addSiteWithAssertion] at hp
                  rcases hp with heq2 | hp
                  · exfalso
                    rw [heq2] at htp
                    exact htp rfl
                  · exact hmB2 fS A0 B0 hF p (Or.inl hp)
                · exact hmB2 fS A0 B0 hF p (Or.inr hp)
              · rw [if_neg htu, if_neg hfu] at hu
                exact hmB2 u A B hu p hp
          obtain ⟨w, hw⟩ := hmem
          exact ⟨w, by rw [lookupVal_mapInsert, if_neg htp, lookupVal_mapInsert, if_neg hfp]
                       exact hw⟩

/-- C4 amended: for every map produced by a sequence of `StoreDetermined`
and `StoreImplication` calls from the empty map, edge symmetry holds
between all pairs of sites that are (still) undetermined: `(v, t)` is in
`u`'s `Implicates` iff `(u, t)` is in `v`'s `Implicants` — in particular
the trigger sets on the two sides are equal as sets.  (The unrestricted
claim fails once `StoreDetermined` overwrites an endpoint; see the
counterexample.) -/
theorem edge_symmetry_reachable (i : InferredMap) (hr : Reaches i)
    (u v : primitiveSite) (t : primitiveFullTrigger) (A B C D : sitesWithAssertions)
    (hu : lookupVal i.mapping u = some (.UndeterminedVal A B))
    (hv : lookupVal i.mapping v = some (.UndeterminedVal C D)) :
    ((v, t) ∈ A ↔ (u, t) ∈ D) := by
  suffices h :
      (∀ u' v' t' A' B' C' D', lookupVal i.mapping u' = some (.UndeterminedVal A' B') →
        lookupVal i.mapping v' = some (.UndeterminedVal C' D') →
        ((v', t') ∈ A' ↔ (u', t') ∈ D')) ∧
      (∀ u' A' B', lookupVal i.mapping u' = some (.UndeterminedVal A' B') →
        ∀ p : primitiveSite × primitiveFullTrigger, p ∈ A' ∨ p ∈ B' →
        ∃ w, lookupVal i.mapping p.1 = some w) by
    exact h.1 u v t A B C D hu hv
  clear hu hv
  induction hr with
  | empty =>
    constructor
    · intro u' v' t' A' B' C' D' hu' hv'
      simp [newInferredMap, lookupVal] at hu'
    · intro u' A' B' hu'
      simp [newInferredMap, lookupVal] at hu'
  | det site value hrj ihj =>
    exact storeDetermined_preserves_symm _ site value ihj.1 ihj.2
  | impl fS tS asrt hrj heq ihj =>
    exact storeImplication_preserves_symm _ _ fS tS asrt heq ihj.1 ihj.2

/-- C4 witness: on the concrete reachable map with the single edge
u ⇒ v (trigger 5), the symmetry instance holds. -/
theorem edge_symmetry_reachable_witness :
    ((({ key := 1, deep := false, exported := false }, 5) : primitiveSite × primitiveFullTrigger) ∈
        ([({ key := 1, deep := false, exported := false }, 5)] : sitesWithAssertions) ↔
      (({ key := 0, deep := false, exported := false }, 5) : primitiveSite × primitiveFullTrigger) ∈
        ([({ key := 0, deep := false, exported := false }, 5)] : sitesWithAssertions)) :=
  edge_symmetry_reachable
    { upstreamMapping := [],
      mapping :=
        [({ key := 0, deep := false, exported := false },
          InferredVal.UndeterminedVal [({ key := 1, deep := false, exported := false }, 5)] []),
         ({ key := 1, deep := false, exported := false },
          InferredVal.UndeterminedVal [] [({ key := 0, deep := false, exported := false }, 5)])] }
    (Reaches.impl { key := 0, deep := false, exported := false }
      { key := 1, deep := false, exported := false } 5 Reaches.empty (by decide))
    { key := 0, deep := false, exported := false }
    { key := 1, deep := false, exported := false } 5
    [({ key := 1, deep := false, exported := false }, 5)] []
    [] [({ key := 0, deep := false, exported := false }, 5)]
    (by decide) (by decide)

/-! ### Path utilities for the export selector -/

theorem edgeSymm_of_B (m : Mapping) (h : edgeSymmB m = true) : EdgeSymm m := by
  rw [edgeSymmB, List.all_eq_true] at h
  intro u v
  constructor
  · rintro ⟨A, B, hu, hv⟩
    have hk : u ∈ keysD m := (mem_keysD_iff m u).mpr ⟨_, hu⟩
    have hu' := h u hk
    rw [hu] at hu'
    simp only [Bool.and_eq_true, List.all_eq_true] at hu'
    have := hu'.1 v hv
    rw [impnEdgeB] at this
    rcases hv' : lookupVal m v with _ | w
    · rw [hv'] at this; cases this
    · rcases w with b | ⟨C, D⟩
      · rw [hv'] at this; cases this
      · rw [hv'] at this
        simp only [decide_eq_true_eq] at this
        exact ⟨C, D, hv', this⟩
  · rintro ⟨C, D, hv, hu⟩
    have hk : v ∈ keysD m := (mem_keysD_iff m v).mpr ⟨_, hv⟩
    have hv' := h v hk
    rw [hv] at hv'
    simp only [Bool.and_eq_true, List.all_eq_true] at hv'
    have := hv'.2 u hu
    rw [implEdgeB] at this
    rcases hu' : lookupVal m u with _ | w
    · rw [hu'] at this; cases this
    · rcases w with b | ⟨A, B⟩
      · rw [hu'] at this; cases this
      · rw [hu'] at this
        simp only [decide_eq_true_eq] at this
        exact ⟨A, B, hu', this⟩

theorem PPath_ends (m : Mapping) (u v : primitiveSite) (h : PPath m u v) :
    privUndet m u ∧ privUndet m v := by
  induction h with
  | refl hs => exact ⟨hs, hs⟩
  | tail hp he hw ih => exact ⟨ih.1, hw⟩

theorem PPath_trans (m : Mapping) (u v w : primitiveSite)
    (h1 : PPath m u v) (h2 : PPath m v w) : PPath m u w := by
  induction h2 with
  | refl hs => exact h1
  | tail hp he hw ih => exact PPath.tail ih he hw

theorem QPath_ends (m : Mapping) (u v : primitiveSite) (h : QPath m u v) :
    privUndet m u ∧ privUndet m v := by
  induction h with
  | refl hs => exact ⟨hs, hs⟩
  | tail hp he hw ih => exact ⟨ih.1, hw⟩

theorem QPath_trans (m : Mapping) (u v w : primitiveSite)
    (h1 : QPath m u v) (h2 : QPath m v w) : QPath m u w := by
  induction h2 with
  | refl hs => exact h1
  | tail hp he hw ih => exact QPath.tail ih he hw

theorem pathI_append (m : Mapping) (a b c : primitiveSite) (l1 l2 : List primitiveSite)
    (h1 : ImplPathI m a l1 b) (h2 : ImplPathI m b l2 c) :
    ImplPathI m a (l1 ++ b :: l2) c := by
  induction h1 with
  | single he => exact ImplPathI.cons he h2
  | cons he hp ih => exact ImplPathI.cons he (ih h2)

theorem pathI_start_lookup (m : Mapping) (a b : primitiveSite) (l : List primitiveSite)
    (h : ImplPathI m a l b) : ∃ A B, lookupVal m a = some (.UndeterminedVal A B) := by
  cases h with
  | single he => exact ⟨he.choose, he.choose_spec.choose, he.choose_spec.choose_spec.1⟩
  | cons he hp => exact ⟨he.choose, he.choose_spec.choose, he.choose_spec.choose_spec.1⟩

theorem pathI_mem_split (m : Mapping) (a b p : primitiveSite) (mid : List primitiveSite)
    (h : ImplPathI m a mid b) (hp : p ∈ mid) :
    ∃ l1 l2, mid = l1 ++ p :: l2 ∧ ImplPathI m a l1 p ∧ ImplPathI m p l2 b := by
  induction h with
  | single he => cases hp
  | cons he hrest ih =>
    rename_i a' x b' l
    rw [List.mem_cons] at hp
    rcases hp with rfl | hp
    · exact ⟨[], l, rfl, ImplPathI.single he, hrest⟩
    · obtain ⟨l1, l2, heq2, hp1, hp2⟩ := ih hp
      exact ⟨x :: l1, l2, by rw [heq2]; rfl, ImplPathI.cons he hp1, hp2⟩

/-- A path from an `H`-site to a private undetermined `p` puts `p` in
`Fwd`: either the start is exported (base of `Fwd`) or it is already
`Fwd`-reachable and the path extends the witness. -/
theorem pathI_fwd (m : Mapping) (v p : primitiveSite) (l : List primitiveSite)
    (h : ImplPathI m v l p) (hpp : privUndet m p)
    (hv : v.exported = true ∨ Fwd m v) : Fwd m p := by
  induction h with
  | single he =>
    rename_i a' b'
    obtain ⟨A, B, ha, hb⟩ := he
    rcases hv with hexp | ⟨e, A2, B2, hexp, hlk, w, hw, hpath⟩
    · exact ⟨a', A, B, hexp, ha, b', hb, PPath.refl b' hpp⟩
    · exact ⟨e, A2, B2, hexp, hlk, w, hw,
        PPath.tail hpath ⟨A, B, ha, hb⟩ hpp⟩
  | cons he hrest ih =>
    rename_i a' x b' l'
    apply ih hpp
    obtain ⟨A, B, ha, hx⟩ := he
    have hxu : isUndet m x := pathI_start_lookup m x b' l' hrest
    by_cases hxe : x.exported = true
    · exact Or.inl hxe
    · have hxp : privUndet m x := ⟨by simpa using hxe, hxu⟩
      rcases hv with hexp | ⟨e, A2, B2, hexp, hlk, w, hw, hpath⟩
      · exact Or.inr ⟨a', A, B, hexp, ha, x, hx, PPath.refl x hxp⟩
      · exact Or.inr ⟨e, A2, B2, hexp, hlk, w, hw,
          PPath.tail hpath ⟨A, B, ha, hx⟩ hxp⟩

/-- With edge symmetry, a path from a private undetermined `p` to an
exported site puts `p` in `Bwd`. -/
theorem pathI_bwd (m : Mapping) (p b : primitiveSite) (l : List primitiveSite)
    (hsym : EdgeSymm m) (h : ImplPathI m p l b) (hpp : privUndet m p)
    (hb : b.exported = true) : Bwd m p := by
  induction h with
  | single he =>
    rename_i a' b'
    obtain ⟨A, B, hlkb, hmem⟩ := (hsym a' b').mp he
    exact ⟨b', A, B, hb, hlkb, a', hmem, QPath.refl a' hpp⟩
  | cons he hrest ih =>
    rename_i a' x b' l'
    obtain ⟨A, B, hlkx, hmem⟩ := (hsym a' x).mp he
    by_cases hxe : x.exported = true
    · exact ⟨x, A, B, hxe, hlkx, a', hmem, QPath.refl a' hpp⟩
    · have hxp : privUndet m x := ⟨by simpa using hxe, A, B, hlkx⟩
      obtain ⟨e, A2, B2, hexp, hlk, w, hw, hpath⟩ := ih hxp hb
      exact ⟨e, A2, B2, hexp, hlk, w, hw,
        QPath.tail hpath ⟨A, B, hlkx, hmem⟩ hpp⟩

theorem PPath_to_pathI (m : Mapping) (v p : primitiveSite) (h : PPath m v p) :
    v = p ∨ ∃ l, ImplPathI m v l p := by
  induction h with
  | refl hs => exact Or.inl rfl
  | tail hp he hw ih =>
    rename_i v' w'
    rcases ih with rfl | ⟨l, hl⟩
    · exact Or.inr ⟨[], ImplPathI.single he⟩
    · exact Or.inr ⟨l ++ [v'], by
        simpa using pathI_append m v v' w' l [] hl (ImplPathI.single he)⟩

theorem QPath_to_pathI (m : Mapping) (v p : primitiveSite) (hsym : EdgeSymm m)
    (h : QPath m v p) : v = p ∨ ∃ l, ImplPathI m p l v := by
  induction h with
  | refl hs => exact Or.inl rfl
  | tail hp he hw ih =>
    rename_i v' w'
    -- `he : impnEdge m v' w'` records the edge `w' ⇒ v'`
    have hedge : implEdge m w' v' := (hsym w' v').mpr he
    rcases ih with rfl | ⟨l, hl⟩
    · exact Or.inr ⟨[], ImplPathI.single hedge⟩
    · exact Or.inr ⟨v' :: l, ImplPathI.cons hedge hl⟩

/-! ### Monotonicity and frame properties of the markers -/

theorem foldl_state_pres (f : ChooseState → primitiveSite → ChooseState)
    (P : ChooseState → ChooseState → Prop)
    (hrefl : ∀ st, P st st)
    (htrans : ∀ a b c, P a b → P b c → P a c)
    (hf : ∀ st s, P st (f st s)) :
    ∀ (l : List primitiveSite) (st : ChooseState), P st (l.foldl f st) := by
  intro l
  induction l with
  | nil => intro st; simpa using hrefl st
  | cons s rest ih =>
    intro st
    rw [List.foldl_cons]
    exact htrans _ _ _ (hf st s) (ih (f st s))

theorem markRFE_mono (m : Mapping) : ∀ (fuel : Nat) (st : ChooseState) (site : primitiveSite),
    st.toExport ⊆ (markReachableFromExported m fuel st site).toExport ∧
    st.reachableFromExported ⊆ (markReachableFromExported m fuel st site).reachableFromExported ∧
    (markReachableFromExported m fuel st site).reachesExported = st.reachesExported := by
  intro fuel
  induction fuel with
  | zero =>
    intro st site
    exact ⟨List.Subset.refl _, List.Subset.refl _, rfl⟩
  | succ fuel ih =>
    intro st site
    rw [markReachableFromExported]
    rcases hlk : lookupVal m site with _ | v
    · exact ⟨List.Subset.refl _, List.Subset.refl _, rfl⟩
    · rcases v with b | ⟨A, B⟩
      · exact ⟨List.Subset.refl _, List.Subset.refl _, rfl⟩
      · dsimp only
        by_cases hg : site.exported = false ∧ site ∉ st.toExport ∧ site ∉ st.reachableFromExported
        · rw [if_pos hg]
          have hfold := foldl_state_pres (fun acc s => markReachableFromExported m fuel acc s)
            (fun a b => a.toExport ⊆ b.toExport ∧ a.reachableFromExported ⊆ b.reachableFromExported ∧
              b.reachesExported = a.reachesExported)
            (fun st0 => ⟨List.Subset.refl _, List.Subset.refl _, rfl⟩)
            (fun a b c hab hbc => ⟨hab.1.trans hbc.1, hab.2.1.trans hbc.2.1, hbc.2.2.trans hab.2.2⟩)
            (fun st0 s => ih st0 s) (sitesOf A)
          by_cases hre : site ∈ st.reachesExported
          · rw [if_pos hre]
            obtain ⟨g1, g2, g3⟩ := hfold { st with toExport := site :: st.toExport }
            exact ⟨(List.subset_cons_of_subset site (List.Subset.refl st.toExport)).trans g1, g2, g3⟩
          · rw [if_neg hre]
            obtain ⟨g1, g2, g3⟩ :=
              hfold { st with reachableFromExported := site :: st.reachableFromExported }
            exact ⟨g1, (List.subset_cons_of_subset site (List.Subset.refl st.reachableFromExported)).trans g2, g3⟩
        · rw [if_neg hg]
          exact ⟨List.Subset.refl _, List.Subset.refl _, rfl⟩

theorem markRE_mono (m : Mapping) : ∀ (fuel : Nat) (st : ChooseState) (site : primitiveSite),
    st.toExport ⊆ (markReachesExported m fuel st site).toExport ∧
    st.reachesExported ⊆ (markReachesExported m fuel st site).reachesExported ∧
    (markReachesExported m fuel st site).reachableFromExported = st.reachableFromExported := by
  intro fuel
  induction fuel with
  | zero =>
    intro st site
    exact ⟨List.Subset.refl _, List.Subset.refl _, rfl⟩
  | succ fuel ih =>
    intro st site
    rw [markReachesExported]
    rcases hlk : lookupVal m site with _ | v
    · exact ⟨List.Subset.refl _, List.Subset.refl _, rfl⟩
    · rcases v with b | ⟨A, B⟩
      · exact ⟨List.Subset.refl _, List.Subset.refl _, rfl⟩
      · dsimp only
        by_cases hg : site.exported = false ∧ site ∉ st.toExport ∧ site ∉ st.reachesExported
        · rw [if_pos hg]
          have hfold := foldl_state_pres (fun acc s => markReachesExported m fuel acc s)
            (fun a b => a.toExport ⊆ b.toExport ∧ a.reachesExported ⊆ b.reachesExported ∧
              b.reachableFromExported = a.reachableFromExported)
            (fun st0 => ⟨List.Subset.refl _, List.Subset.refl _, rfl⟩)
            (fun a b c hab hbc => ⟨hab.1.trans hbc.1, hab.2.1.trans hbc.2.1, hbc.2.2.trans hab.2.2⟩)
            (fun st0 s => ih st0 s) (sitesOf B)
          by_cases hre : site ∈ st.reachableFromExported
          · rw [if_pos hre]
            obtain ⟨g1, g2, g3⟩ := hfold { st with toExport := site :: st.toExport }
            exact ⟨(List.subset_cons_of_subset site (List.Subset.refl st.toExport)).trans g1, g2, g3⟩
          · rw [if_neg hre]
            obtain ⟨g1, g2, g3⟩ := hfold { st with reachesExported := site :: st.reachesExported }
            exact ⟨g1, (List.subset_cons_of_subset site (List.Subset.refl st.reachesExported)).trans g2, g3⟩
        · rw [if_neg hg]
          exact ⟨List.Subset.refl _, List.Subset.refl _, rfl⟩

theorem mem_marksF (st : ChooseState) (q : primitiveSite) :
    q ∈ marksF st ↔ q ∈ st.toExport ∨ q ∈ st.reachableFromExported := by
  simp [marksF, List.mem_append]

theorem mem_marksB (st : ChooseState) (q : primitiveSite) :
    q ∈ marksB st ↔ q ∈ st.toExport ∨ q ∈ st.reachesExported := by
  simp [marksB, List.mem_append]

theorem markRFE_marks_mono (m : Mapping) (fuel : Nat) (st : ChooseState) (site : primitiveSite) :
    (∀ q, q ∈ marksF st → q ∈ marksF (markReachableFromExported m fuel st site)) ∧
    (∀ q, q ∈ marksB st → q ∈ marksB (markReachableFromExported m fuel st site)) := by
  obtain ⟨h1, h2, h3⟩ := markRFE_mono m fuel st site
  constructor
  · intro q hq
    rw [mem_marksF] at hq ⊢
    rcases hq with hq | hq
    · exact Or.inl (h1 hq)
    · exact Or.inr (h2 hq)
  · intro q hq
    rw [mem_marksB] at hq ⊢
    rcases hq with hq | hq
    · exact Or.inl (h1 hq)
    · exact Or.inr (by rw [h3]; exact hq)

theorem markRE_marks_mono (m : Mapping) (fuel : Nat) (st : ChooseState) (site : primitiveSite) :
    (∀ q, q ∈ marksB st → q ∈ marksB (markReachesExported m fuel st site)) ∧
    (∀ q, q ∈ marksF st → q ∈ marksF (markReachesExported m fuel st site)) := by
  obtain ⟨h1, h2, h3⟩ := markRE_mono m fuel st site
  constructor
  · intro q hq
    rw [mem_marksB] at hq ⊢
    rcases hq with hq | hq
    · exact Or.inl (h1 hq)
    · exact Or.inr (h2 hq)
  · intro q hq
    rw [mem_marksF] at hq ⊢
    rcases hq with hq | hq
    · exact Or.inl (h1 hq)
    · exact Or.inr (by rw [h3]; exact hq)

theorem foldl_markRFE_marks_mono (m : Mapping) (fuel : Nat) (l : List primitiveSite)
    (st : ChooseState) :
    ∀ q, q ∈ marksF st →
      q ∈ marksF (l.foldl (fun acc s => markReachableFromExported m fuel acc s) st) := by
  have := foldl_state_pres (fun acc s => markReachableFromExported m fuel acc s)
    (fun a b => ∀ q, q ∈ marksF a → q ∈ marksF b)
    (fun st0 q hq => hq) (fun a b c hab hbc q hq => hbc q (hab q hq))
    (fun st0 s => (markRFE_marks_mono m fuel st0 s).1) l st
  exact this

theorem foldl_markRE_marks_mono (m : Mapping) (fuel : Nat) (l : List primitiveSite)
    (st : ChooseState) :
    ∀ q, q ∈ marksB st →
      q ∈ marksB (l.foldl (fun acc s => markReachesExported m fuel acc s) st) := by
  have := foldl_state_pres (fun acc s => markReachesExported m fuel acc s)
    (fun a b => ∀ q, q ∈ marksB a → q ∈ marksB b)
    (fun st0 q hq => hq) (fun a b c hab hbc q hq => hbc q (hab q hq))
    (fun st0 s => (markRE_marks_mono m fuel st0 s).1) l st
  exact this

theorem foldl_markRFE_RE_frame (m : Mapping) (fuel : Nat) (l : List primitiveSite)
    (st : ChooseState) :
    (l.foldl (fun acc s => markReachableFromExported m fuel acc s) st).reachesExported =
      st.reachesExported := by
  have := foldl_state_pres (fun acc s => markReachableFromExported m fuel acc s)
    (fun a b => b.reachesExported = a.reachesExported)
    (fun st0 => rfl) (fun a b c hab hbc => hbc.trans hab)
    (fun st0 s => (markRFE_mono m fuel st0 s).2.2) l st
  exact this

theorem foldl_markRE_RFE_frame (m : Mapping) (fuel : Nat) (l : List primitiveSite)
    (st : ChooseState) :
    (l.foldl (fun acc s => markReachesExported m fuel acc s) st).reachableFromExported =
      st.reachableFromExported := by
  have := foldl_state_pres (fun acc s => markReachesExported m fuel acc s)
    (fun a b => b.reachableFromExported = a.reachableFromExported)
    (fun st0 => rfl) (fun a b c hab hbc => hbc.trans hab)
    (fun st0 s => (markRE_mono m fuel st0 s).2.2) l st
  exact this

/-! ### Soundness of the markers: every new mark is justified by a path -/

theorem foldl_markRFE_sound (m : Mapping) (fuel : Nat)
    (hsite : ∀ (st : ChooseState) (site q : primitiveSite),
      (q ∈ (markReachableFromExported m fuel st site).toExport →
        q ∈ st.toExport ∨ (PPath m site q ∧ q ∈ st.reachesExported)) ∧
      (q ∈ (markReachableFromExported m fuel st site).reachableFromExported →
        q ∈ st.reachableFromExported ∨ (PPath m site q ∧ q ∉ st.reachesExported))) :
    ∀ (l : List primitiveSite) (st : ChooseState) (q : primitiveSite),
      (q ∈ (l.foldl (fun acc s => markReachableFromExported m fuel acc s) st).toExport →
        q ∈ st.toExport ∨ ((∃ s ∈ l, PPath m s q) ∧ q ∈ st.reachesExported)) ∧
      (q ∈ (l.foldl (fun acc s => markReachableFromExported m fuel acc s) st).reachableFromExported →
        q ∈ st.reachableFromExported ∨ ((∃ s ∈ l, PPath m s q) ∧ q ∉ st.reachesExported)) := by
  intro l
  induction l with
  | nil =>
    intro st q
    exact ⟨fun h => Or.inl h, fun h => Or.inl h⟩
  | cons s rest ih =>
    intro st q
    rw [List.foldl_cons]
    have hframe : (markReachableFromExported m fuel st s).reachesExported = st.reachesExported :=
      (markRFE_mono m fuel st s).2.2
    obtain ⟨ihT, ihR⟩ := ih (markReachableFromExported m fuel st s) q
    constructor
    · intro h
      rcases ihT h with h2 | ⟨⟨s', hs', hp⟩, hre⟩
      · rcases (hsite st s q).1 h2 with h3 | ⟨hp, hre⟩
        · exact Or.inl h3
        · exact Or.inr ⟨⟨s, List.mem_cons_self s rest, hp⟩, hre⟩
      · rw [hframe] at hre
        exact Or.inr ⟨⟨s', List.mem_cons_of_mem s hs', hp⟩, hre⟩
    · intro h
      rcases ihR h with h2 | ⟨⟨s', hs', hp⟩, hre⟩
      · rcases (hsite st s q).2 h2 with h3 | ⟨hp, hre⟩
        · exact Or.inl h3
        · exact Or.inr ⟨⟨s, List.mem_cons_self s rest, hp⟩, hre⟩
      · rw [hframe] at hre
        exact Or.inr ⟨⟨s', List.mem_cons_of_mem s hs', hp⟩, hre⟩

theorem markRFE_sound (m : Mapping) :
    ∀ (fuel : Nat) (st : ChooseState) (site q : primitiveSite),
      (q ∈ (markReachableFromExported m fuel st site).toExport →
        q ∈ st.toExport ∨ (PPath m site q ∧ q ∈ st.reachesExported)) ∧
      (q ∈ (markReachableFromExported m fuel st site).reachableFromExported →
        q ∈ st.reachableFromExported ∨ (PPath m site q ∧ q ∉ st.reachesExported)) := by
  intro fuel
  induction fuel with
  | zero =>
    intro st site q
    exact ⟨fun h => Or.inl h, fun h => Or.inl h⟩
  | succ fuel ih =>
    intro st site q
    rw [markReachableFromExported]
    rcases hlk : lookupVal m site with _ | v
    · exact ⟨fun h => Or.inl h, fun h => Or.inl h⟩
    · rcases v with b | ⟨A, B⟩
      · exact ⟨fun h => Or.inl h, fun h => Or.inl h⟩
      · dsimp only
        by_cases hg : site.exported = false ∧ site ∉ st.toExport ∧ site ∉ st.reachableFromExported
        · rw [if_pos hg]
          have hpu : privUndet m site := ⟨hg.1, A, B, hlk⟩
          have hstep : ∀ s, s ∈ sitesOf A → PPath m s q → PPath m site q := by
            intro s hs hp
            have hps : privUndet m s := (PPath_ends m s q hp).1
            exact PPath_trans m site s q
              (PPath.tail (PPath.refl site hpu) ⟨A, B, hlk, hs⟩ hps) hp
          by_cases hre : site ∈ st.reachesExported
          · rw [if_pos hre]
            obtain ⟨hT, hR⟩ := foldl_markRFE_sound m fuel (fun st0 s0 q0 => ih st0 s0 q0)
              (sitesOf A) { st with toExport := site :: st.toExport } q
            constructor
            · intro h
              rcases hT h with h2 | ⟨⟨s', hs', hp⟩, hre2⟩
              · rw [List.mem_cons] at h2
                rcases h2 with rfl | h2
                · exact Or.inr ⟨PPath.refl q hpu, hre⟩
                · exact Or.inl h2
              · exact Or.inr ⟨hstep s' hs' hp, hre2⟩
            · intro h
              rcases hR h with h2 | ⟨⟨s', hs', hp⟩, hre2⟩
              · exact Or.inl h2
              · exact Or.inr ⟨hstep s' hs' hp, hre2⟩
          · rw [if_neg hre]
            obtain ⟨hT, hR⟩ := foldl_markRFE_sound m fuel (fun st0 s0 q0 => ih st0 s0 q0)
              (sitesOf A) { st with reachableFromExported := site :: st.reachableFromExported } q
            constructor
            · intro h
              rcases hT h with h2 | ⟨⟨s', hs', hp⟩, hre2⟩
              · exact Or.inl h2
              · exact Or.inr ⟨hstep s' hs' hp, hre2⟩
            · intro h
              rcases hR h with h2 | ⟨⟨s', hs', hp⟩, hre2⟩
              · rw [List.mem_cons] at h2
                rcases h2 with rfl | h2
                · exact Or.inr ⟨PPath.refl q hpu, hre⟩
                · exact Or.inl h2
              · exact Or.inr ⟨hstep s' hs' hp, hre2⟩
        · rw [if_neg hg]
          exact ⟨fun h => Or.inl h, fun h => Or.inl h⟩

theorem foldl_markRE_sound (m : Mapping) (fuel : Nat)
    (hsite : ∀ (st : ChooseState) (site q : primitiveSite),
      (q ∈ (markReachesExported m fuel st site).toExport →
        q ∈ st.toExport ∨ (QPath m site q ∧ q ∈ st.reachableFromExported)) ∧
      (q ∈ (markReachesExported m fuel st site).reachesExported →
        q ∈ st.reachesExported ∨ (QPath m site q ∧ q ∉ st.reachableFromExported))) :
    ∀ (l : List primitiveSite) (st : ChooseState) (q : primitiveSite),
      (q ∈ (l.foldl (fun acc s => markReachesExported m fuel acc s) st).toExport →
        q ∈ st.toExport ∨ ((∃ s ∈ l, QPath m s q) ∧ q ∈ st.reachableFromExported)) ∧
      (q ∈ (l.foldl (fun acc s => markReachesExported m fuel acc s) st).reachesExported →
        q ∈ st.reachesExported ∨ ((∃ s ∈ l, QPath m s q) ∧ q ∉ st.reachableFromExported)) := by
  intro l
  induction l with
  | nil =>
    intro st q
    exact ⟨fun h => Or.inl h, fun h => Or.inl h⟩
  | cons s rest ih =>
    intro st q
    rw [List.foldl_cons]
    have hframe : (markReachesExported m fuel st s).reachableFromExported =
        st.reachableFromExported := (markRE_mono m fuel st s).2.2
    obtain ⟨ihT, ihR⟩ := ih (markReachesExported m fuel st s) q
    constructor
    · intro h
      rcases ihT h with h2 | ⟨⟨s', hs', hp⟩, hre⟩
      · rcases (hsite st s q).1 h2 with h3 | ⟨hp, hre⟩
        · exact Or.inl h3
        · exact Or.inr ⟨⟨s, List.mem_cons_self s rest, hp⟩, hre⟩
      · rw [hframe] at hre
        exact Or.inr ⟨⟨s', List.mem_cons_of_mem s hs', hp⟩, hre⟩
    · intro h
      rcases ihR h with h2 | ⟨⟨s', hs', hp⟩, hre⟩
      · rcases (hsite st s q).2 h2 with h3 | ⟨hp, hre⟩
        · exact Or.inl h3
        · exact Or.inr ⟨⟨s, List.mem_cons_self s rest, hp⟩, hre⟩
      · rw [hframe] at hre
        exact Or.inr ⟨⟨s', List.mem_cons_of_mem s hs', hp⟩, hre⟩

theorem markRE_sound (m : Mapping) :
    ∀ (fuel : Nat) (st : ChooseState) (site q : primitiveSite),
      (q ∈ (markReachesExported m fuel st site).toExport →
        q ∈ st.toExport ∨ (QPath m site q ∧ q ∈ st.reachableFromExported)) ∧
      (q ∈ (markReachesExported m fuel st site).reachesExported →
        q ∈ st.reachesExported ∨ (QPath m site q ∧ q ∉ st.reachableFromExported)) := by
  intro fuel
  induction fuel with
  | zero =>
    intro st site q
    exact ⟨fun h => Or.inl h, fun h => Or.inl h⟩
  | succ fuel ih =>
    intro st site q
    rw [markReachesExported]
    rcases hlk : lookupVal m site with _ | v
    · exact ⟨fun h => Or.inl h, fun h => Or.inl h⟩
    · rcases v with b | ⟨A, B⟩
      · exact ⟨fun h => Or.inl h, fun h => Or.inl h⟩
      · dsimp only
        by_cases hg : site.exported = false ∧ site ∉ st.toExport ∧ site ∉ st.reachesExported
        · rw [if_pos hg]
          have hpu : privUndet m site := ⟨hg.1, A, B, hlk⟩
          have hstep : ∀ s, s ∈ sitesOf B → QPath m s q → QPath m site q := by
            intro s hs hp
            have hps : privUndet m s := (QPath_ends m s q hp).1
            exact QPath_trans m site s q
              (QPath.tail (QPath.refl site hpu) ⟨A, B, hlk, hs⟩ hps) hp
          by_cases hre : site ∈ st.reachableFromExported
          · rw [if_pos hre]
            obtain ⟨hT, hR⟩ := foldl_markRE_sound m fuel (fun st0 s0 q0 => ih st0 s0 q0)
              (sitesOf B) { st with toExport := site :: st.toExport } q
            constructor
            · intro h
              rcases hT h with h2 | ⟨⟨s', hs', hp⟩, hre2⟩
              · rw [List.mem_cons] at h2
                rcases h2 with rfl | h2
                · exact Or.inr ⟨QPath.refl q hpu, hre⟩
                · exact Or.inl h2
              · exact Or.inr ⟨hstep s' hs' hp, hre2⟩
            · intro h
              rcases hR h with h2 | ⟨⟨s', hs', hp⟩, hre2⟩
              · exact Or.inl h2
              · exact Or.inr ⟨hstep s' hs' hp, hre2⟩
          · rw [if_neg hre]
            obtain ⟨hT, hR⟩ := foldl_markRE_sound m fuel (fun st0 s0 q0 => ih st0 s0 q0)
              (sitesOf B) { st with reachesExported := site :: st.reachesExported } q
            constructor
            · intro h
              rcases hT h with h2 | ⟨⟨s', hs', hp⟩, hre2⟩
              · exact Or.inl h2
              · exact Or.inr ⟨hstep s' hs' hp, hre2⟩
            · intro h
              rcases hR h with h2 | ⟨⟨s', hs', hp⟩, hre2⟩
              · rw [List.mem_cons] at h2
                rcases h2 with rfl | h2
                · exact Or.inr ⟨QPath.refl q hpu, hre⟩
                · exact Or.inl h2
              · exact Or.inr ⟨hstep s' hs' hp, hre2⟩
        · rw [if_neg hg]
          exact ⟨fun h => Or.inl h, fun h => Or.inl h⟩

/-! ### Completeness of the markers: everything reachable gets marked -/

theorem remF_le_of_subset (m : Mapping) (st st' : ChooseState)
    (h : ∀ x, x ∈ marksF st → x ∈ marksF st') : remF m st' ≤ remF m st := by
  apply length_filter_le_mono
  intro a _ ha
  simp only [decide_eq_true_eq] at ha ⊢
  exact fun hmem => ha (h a hmem)

theorem remF_lt (m : Mapping) (st st' : ChooseState) (site : primitiveSite)
    (hk : site ∈ keysD m) (hnm : site ∉ marksF st)
    (hsub : ∀ x, x ∈ marksF st → x ∈ marksF st') (hin : site ∈ marksF st') :
    remF m st' < remF m st := by
  apply length_filter_lt _ _ _ site hk
  · simpa using hnm
  · simpa using hin
  · intro a _ ha
    simp only [decide_eq_true_eq] at ha ⊢
    exact fun hmem => ha (hsub a hmem)

theorem remB_le_of_subset (m : Mapping) (st st' : ChooseState)
    (h : ∀ x, x ∈ marksB st → x ∈ marksB st') : remB m st' ≤ remB m st := by
  apply length_filter_le_mono
  intro a _ ha
  simp only [decide_eq_true_eq] at ha ⊢
  exact fun hmem => ha (h a hmem)

theorem remB_lt (m : Mapping) (st st' : ChooseState) (site : primitiveSite)
    (hk : site ∈ keysD m) (hnm : site ∉ marksB st)
    (hsub : ∀ x, x ∈ marksB st → x ∈ marksB st') (hin : site ∈ marksB st') :
    remB m st' < remB m st := by
  apply length_filter_lt _ _ _ site hk
  · simpa using hnm
  · simpa using hin
  · intro a _ ha
    simp only [decide_eq_true_eq] at ha ⊢
    exact fun hmem => ha (hsub a hmem)

theorem foldl_markRFE_complete (m : Mapping) (fuel : Nat)
    (hsite : ∀ (st : ChooseState) (site : primitiveSite), remF m st ≤ fuel →
      (site.exported = false → isUndet m site →
        site ∈ marksF (markReachableFromExported m fuel st site)) ∧
      (∀ q, q ∈ marksF (markReachableFromExported m fuel st site) → q ∉ marksF st →
        ∀ w, implEdge m q w → w.exported = false → isUndet m w →
          w ∈ marksF (markReachableFromExported m fuel st site))) :
    ∀ (l : List primitiveSite) (st : ChooseState), remF m st ≤ fuel →
      (∀ s ∈ l, s.exported = false → isUndet m s →
        s ∈ marksF (l.foldl (fun acc s2 => markReachableFromExported m fuel acc s2) st)) ∧
      (∀ q, q ∈ marksF (l.foldl (fun acc s2 => markReachableFromExported m fuel acc s2) st) →
        q ∉ marksF st →
        ∀ w, implEdge m q w → w.exported = false → isUndet m w →
          w ∈ marksF (l.foldl (fun acc s2 => markReachableFromExported m fuel acc s2) st)) := by
  intro l
  induction l with
  | nil =>
    intro st hrem
    constructor
    · intro s hs
      exact absurd hs (List.not_mem_nil s)
    · intro q hq hnq w _ _ _
      exact absurd hq hnq
  | cons s rest ih =>
    intro st hrem
    rw [List.foldl_cons]
    have hsub2 : ∀ x, x ∈ marksF st → x ∈ marksF (markReachableFromExported m fuel st s) :=
      (markRFE_marks_mono m fuel st s).1
    have hrem2 : remF m (markReachableFromExported m fuel st s) ≤ fuel :=
      le_trans (remF_le_of_subset m _ _ hsub2) hrem
    obtain ⟨ihA, ihB⟩ := ih (markReachableFromExported m fuel st s) hrem2
    constructor
    · intro s2 hs2 hexp hund
      rw [List.mem_cons] at hs2
      rcases hs2 with rfl | hs2
      · exact foldl_markRFE_marks_mono m fuel rest _ s2 ((hsite st s2 hrem).1 hexp hund)
      · exact ihA s2 hs2 hexp hund
    · intro q hq hnq w hw hwexp hwund
      by_cases hq2 : q ∈ marksF (markReachableFromExported m fuel st s)
      · exact foldl_markRFE_marks_mono m fuel rest _ w
          ((hsite st s hrem).2 q hq2 hnq w hw hwexp hwund)
      · exact ihB q hq hq2 w hw hwexp hwund

theorem markRFE_complete (m : Mapping) :
    ∀ (fuel : Nat) (st : ChooseState) (site : primitiveSite), remF m st ≤ fuel →
      (site.exported = false → isUndet m site →
        site ∈ marksF (markReachableFromExported m fuel st site)) ∧
      (∀ q, q ∈ marksF (markReachableFromExported m fuel st site) → q ∉ marksF st →
        ∀ w, implEdge m q w → w.exported = false → isUndet m w →
          w ∈ marksF (markReachableFromExported m fuel st site)) := by
  intro fuel
  induction fuel with
  | zero =>
    intro st site hrem
    constructor
    · intro hexp hund
      obtain ⟨A, B, hlk⟩ := hund
      have hk : site ∈ keysD m := (mem_keysD_iff m site).mpr ⟨_, hlk⟩
      by_contra hns
      have hmem : site ∈ (keysD m).filter (fun s => decide (s ∉ marksF st)) := by
        rw [List.mem_filter]
        refine ⟨hk, ?_⟩
        simpa using hns
      have hlen : 0 < remF m st := by
        rw [remF]
        exact List.length_pos.mpr (List.ne_nil_of_mem hmem)
      omega
    · intro q hq hnq w _ _ _
      exact absurd hq hnq
  | succ fuel ih =>
    intro st site hrem
    have hfold := foldl_markRFE_complete m fuel (fun st0 s0 h0 => ih st0 s0 h0)
    rw [markReachableFromExported]
    rcases hlk : lookupVal m site with _ | v
    · constructor
      · intro hexp hund
        obtain ⟨A, B, hlk2⟩ := hund
        rw [hlk] at hlk2
        cases hlk2
      · intro q hq hnq w _ _ _
        exact absurd hq hnq
    · rcases v with b | ⟨A, B⟩
      · constructor
        · intro hexp hund
          obtain ⟨A2, B2, hlk2⟩ := hund
          rw [hlk] at hlk2
          cases hlk2
        · intro q hq hnq w _ _ _
          exact absurd hq hnq
      · dsimp only
        by_cases hg : site.exported = false ∧ site ∉ st.toExport ∧ site ∉ st.reachableFromExported
        · rw [if_pos hg]
          have hnm : site ∉ marksF st := by
            rw [mem_marksF]
            push_neg
            exact ⟨hg.2.1, hg.2.2⟩
          have hk : site ∈ keysD m := (mem_keysD_iff m site).mpr ⟨_, hlk⟩
          by_cases hre : site ∈ st.reachesExported
          · rw [if_pos hre]
            have hsite1 : site ∈ marksF { st with toExport := site :: st.toExport } := by
              rw [mem_marksF]
              exact Or.inl (List.mem_cons_self site st.toExport)
            have hsub1 : ∀ x, x ∈ marksF st →
                x ∈ marksF { st with toExport := site :: st.toExport } := by
              intro x hx
              rw [mem_marksF] at hx ⊢
              rcases hx with hx | hx
              · exact Or.inl (List.mem_cons_of_mem site hx)
              · exact Or.inr hx
            have hone : ∀ x, x ∈ marksF { st with toExport := site :: st.toExport } →
                x = site ∨ x ∈ marksF st := by
              intro x hx
              rw [mem_marksF] at hx
              rcases hx with hx | hx
              · rw [List.mem_cons] at hx
                rcases hx with rfl | hx
                · exact Or.inl rfl
                · exact Or.inr ((mem_marksF st x).mpr (Or.inl hx))
              · exact Or.inr ((mem_marksF st x).mpr (Or.inr hx))
            have hrem1 : remF m { st with toExport := site :: st.toExport } ≤ fuel := by
              have := remF_lt m st _ site hk hnm hsub1 hsite1
              omega
            obtain ⟨hfA, hfB⟩ := hfold (sitesOf A) _ hrem1
            constructor
            · intro hexp hund
              exact foldl_markRFE_marks_mono m fuel (sitesOf A) _ site hsite1
            · intro q hq hnq w hw hwexp hwund
              by_cases hq1 : q ∈ marksF { st with toExport := site :: st.toExport }
              · rcases hone q hq1 with rfl | hq0
                · obtain ⟨A2, B2, hlk2, hwmem⟩ := hw
                  rw [hlk] at hlk2
                  injection hlk2 with hlk2
                  injection hlk2 with e1 e2
                  subst e1
                  exact hfA w hwmem hwexp hwund
                · exact absurd hq0 hnq
              · exact hfB q hq hq1 w hw hwexp hwund
          · rw [if_neg hre]
            have hsite1 : site ∈
                marksF { st with reachableFromExported := site :: st.reachableFromExported } := by
              rw [mem_marksF]
              exact Or.inr (List.mem_cons_self site st.reachableFromExported)
            have hsub1 : ∀ x, x ∈ marksF st →
                x ∈ marksF { st with reachableFromExported := site :: st.reachableFromExported } := by
              intro x hx
              rw [mem_marksF] at hx ⊢
              rcases hx with hx | hx
              · exact Or.inl hx
              · exact Or.inr (List.mem_cons_of_mem site hx)
            have hone : ∀ x,
                x ∈ marksF { st with reachableFromExported := site :: st.reachableFromExported } →
                x = site ∨ x ∈ marksF st := by
              intro x hx
              rw [mem_marksF] at hx
              rcases hx with hx | hx
              · exact Or.inr ((mem_marksF st x).mpr (Or.inl hx))
              · rw [List.mem_cons] at hx
                rcases hx with rfl | hx
                · exact Or.inl rfl
                · exact Or.inr ((mem_marksF st x).mpr (Or.inr hx))
            have hrem1 : remF m
                { st with reachableFromExported := site :: st.reachableFromExported } ≤ fuel := by
              have := remF_lt m st _ site hk hnm hsub1 hsite1
              omega
            obtain ⟨hfA, hfB⟩ := hfold (sitesOf A) _ hrem1
            constructor
            · intro hexp hund
              exact foldl_markRFE_marks_mono m fuel (sitesOf A) _ site hsite1
            · intro q hq hnq w hw hwexp hwund
              by_cases hq1 : q ∈
                  marksF { st with reachableFromExported := site :: st.reachableFromExported }
              · rcases hone q hq1 with rfl | hq0
                · obtain ⟨A2, B2, hlk2, hwmem⟩ := hw
                  rw [hlk] at hlk2
                  injection hlk2 with hlk2
                  injection hlk2 with e1 e2
                  subst e1
                  exact hfA w hwmem hwexp hwund
                · exact absurd hq0 hnq
              · exact hfB q hq hq1 w hw hwexp hwund
        · rw [if_neg hg]
          constructor
          · intro hexp hund
            push_neg at hg
            rw [mem_marksF]
            by_cases hT : site ∈ st.toExport
            · exact Or.inl hT
            · exact Or.inr (hg hexp hT)
          · intro q hq hnq w _ _ _
            exact absurd hq hnq

theorem foldl_markRE_complete (m : Mapping) (fuel : Nat)
    (hsite : ∀ (st : ChooseState) (site : primitiveSite), remB m st ≤ fuel →
      (site.exported = false → isUndet m site →
        site ∈ marksB (markReachesExported m fuel st site)) ∧
      (∀ q, q ∈ marksB (markReachesExported m fuel st site) → q ∉ marksB st →
        ∀ w, impnEdge m q w → w.exported = false → isUndet m w →
          w ∈ marksB (markReachesExported m fuel st site))) :
    ∀ (l : List primitiveSite) (st : ChooseState), remB m st ≤ fuel →
      (∀ s ∈ l, s.exported = false → isUndet m s →
        s ∈ marksB (l.foldl (fun acc s2 => markReachesExported m fuel acc s2) st)) ∧
      (∀ q, q ∈ marksB (l.foldl (fun acc s2 => markReachesExported m fuel acc s2) st) →
        q ∉ marksB st →
        ∀ w, impnEdge m q w → w.exported = false → isUndet m w →
          w ∈ marksB (l.foldl (fun acc s2 => markReachesExported m fuel acc s2) st)) := by
  intro l
  induction l with
  | nil =>
    intro st hrem
    constructor
    · intro s hs
      exact absurd hs (List.not_mem_nil s)
    · intro q hq hnq w _ _ _
      exact absurd hq hnq
  | cons s rest ih =>
    intro st hrem
    rw [List.foldl_cons]
    have hsub2 : ∀ x, x ∈ marksB st → x ∈ marksB (markReachesExported m fuel st s) :=
      (markRE_marks_mono m fuel st s).1
    have hrem2 : remB m (markReachesExported m fuel st s) ≤ fuel :=
      le_trans (remB_le_of_subset m _ _ hsub2) hrem
    obtain ⟨ihA, ihB⟩ := ih (markReachesExported m fuel st s) hrem2
    constructor
    · intro s2 hs2 hexp hund
      rw [List.mem_cons] at hs2
      rcases hs2 with rfl | hs2
      · exact foldl_markRE_marks_mono m fuel rest _ s2 ((hsite st s2 hrem).1 hexp hund)
      · exact ihA s2 hs2 hexp hund
    · intro q hq hnq w hw hwexp hwund
      by_cases hq2 : q ∈ marksB (markReachesExported m fuel st s)
      · exact foldl_markRE_marks_mono m fuel rest _ w
          ((hsite st s hrem).2 q hq2 hnq w hw hwexp hwund)
      · exact ihB q hq hq2 w hw hwexp hwund

theorem markRE_complete (m : Mapping) :
    ∀ (fuel : Nat) (st : ChooseState) (site : primitiveSite), remB m st ≤ fuel →
      (site.exported = false → isUndet m site →
        site ∈ marksB (markReachesExported m fuel st site)) ∧
      (∀ q, q ∈ marksB (markReachesExported m fuel st site) → q ∉ marksB st →
        ∀ w, impnEdge m q w → w.exported = false → isUndet m w →
          w ∈ marksB (markReachesExported m fuel st site)) := by
  intro fuel
  induction fuel with
  | zero =>
    intro st site hrem
    constructor
    · intro hexp hund
      obtain ⟨A, B, hlk⟩ := hund
      have hk : site ∈ keysD m := (mem_keysD_iff m site).mpr ⟨_, hlk⟩
      by_contra hns
      have hmem : site ∈ (keysD m).filter (fun s => decide (s ∉ marksB st)) := by
        rw [List.mem_filter]
        refine ⟨hk, ?_⟩
        simpa using hns
      have hlen : 0 < remB m st := by
        rw [remB]
        exact List.length_pos.mpr (List.ne_nil_of_mem hmem)
      omega
    · intro q hq hnq w _ _ _
      exact absurd hq hnq
  | succ fuel ih =>
    intro st site hrem
    have hfold := foldl_markRE_complete m fuel (fun st0 s0 h0 => ih st0 s0 h0)
    rw [markReachesExported]
    rcases hlk : lookupVal m site with _ | v
    · constructor
      · intro hexp hund
        obtain ⟨A, B, hlk2⟩ := hund
        rw [hlk] at hlk2
        cases hlk2
      · intro q hq hnq w _ _ _
        exact absurd hq hnq
    · rcases v with b | ⟨A, B⟩
      · constructor
        · intro hexp hund
          obtain ⟨A2, B2, hlk2⟩ := hund
          rw [hlk] at hlk2
          cases hlk2
        · intro q hq hnq w _ _ _
          exact absurd hq hnq
      · dsimp only
        by_cases hg : site.exported = false ∧ site ∉ st.toExport ∧ site ∉ st.reachesExported
        · rw [if_pos hg]
          have hnm : site ∉ marksB st := by
            rw [mem_marksB]
            push_neg
            exact ⟨hg.2.1, hg.2.2⟩
          have hk : site ∈ keysD m := (mem_keysD_iff m site).mpr ⟨_, hlk⟩
          by_cases hre : site ∈ st.reachableFromExported
          · rw [if_pos hre]
            have hsite1 : site ∈ marksB { st with toExport := site :: st.toExport } := by
              rw [mem_marksB]
              exact Or.inl (List.mem_cons_self site st.toExport)
            have hsub1 : ∀ x, x ∈ marksB st →
                x ∈ marksB { st with toExport := site :: st.toExport } := by
              intro x hx
              rw [mem_marksB] at hx ⊢
              rcases hx with hx | hx
              · exact Or.inl (List.mem_cons_of_mem site hx)
              · exact Or.inr hx
            have hone : ∀ x, x ∈ marksB { st with toExport := site :: st.toExport } →
                x = site ∨ x ∈ marksB st := by
              intro x hx
              rw [mem_marksB] at hx
              rcases hx with hx | hx
              · rw [List.mem_cons] at hx
                rcases hx with rfl | hx
                · exact Or.inl rfl
                · exact Or.inr ((mem_marksB st x).mpr (Or.inl hx))
              · exact Or.inr ((mem_marksB st x).mpr (Or.inr hx))
            have hrem1 : remB m { st with toExport := site :: st.toExport } ≤ fuel := by
              have := remB_lt m st _ site hk hnm hsub1 hsite1
              omega
            obtain ⟨hfA, hfB⟩ := hfold (sitesOf B) _ hrem1
            constructor
            · intro hexp hund
              exact foldl_markRE_marks_mono m fuel (sitesOf B) _ site hsite1
            · intro q hq hnq w hw hwexp hwund
              by_cases hq1 : q ∈ marksB { st with toExport := site :: st.toExport }
              · rcases hone q hq1 with rfl | hq0
                · obtain ⟨A2, B2, hlk2, hwmem⟩ := hw
                  rw [hlk] at hlk2
                  injection hlk2 with hlk2
                  injection hlk2 with e1 e2
                  subst e2
                  exact hfA w hwmem hwexp hwund
                · exact absurd hq0 hnq
              · exact hfB q hq hq1 w hw hwexp hwund
          · rw [if_neg hre]
            have hsite1 : site ∈
                marksB { st with reachesExported := site :: st.reachesExported } := by
              rw [mem_marksB]
              exact Or.inr (List.mem_cons_self site st.reachesExported)
            have hsub1 : ∀ x, x ∈ marksB st →
                x ∈ marksB { st with reachesExported := site :: st.reachesExported } := by
              intro x hx
              rw [mem_marksB] at hx ⊢
              rcases hx with hx | hx
              · exact Or.inl hx
              · exact Or.inr (List.mem_cons_of_mem site hx)
            have hone : ∀ x,
                x ∈ marksB { st with reachesExported := site :: st.reachesExported } →
                x = site ∨ x ∈ marksB st := by
              intro x hx
              rw [mem_marksB] at hx
              rcases hx with hx | hx
              · exact Or.inr ((mem_marksB st x).mpr (Or.inl hx))
              · rw [List.mem_cons] at hx
                rcases hx with rfl | hx
                · exact Or.inl rfl
                · exact Or.inr ((mem_marksB st x).mpr (Or.inr hx))
            have hrem1 : remB m
                { st with reachesExported := site :: st.reachesExported } ≤ fuel := by
              have := remB_lt m st _ site hk hnm hsub1 hsite1
              omega
            obtain ⟨hfA, hfB⟩ := hfold (sitesOf B) _ hrem1
            constructor
            · intro hexp hund
              exact foldl_markRE_marks_mono m fuel (sitesOf B) _ site hsite1
            · intro q hq hnq w hw hwexp hwund
              by_cases hq1 : q ∈
                  marksB { st with reachesExported := site :: st.reachesExported }
              · rcases hone q hq1 with rfl | hq0
                · obtain ⟨A2, B2, hlk2, hwmem⟩ := hw
                  rw [hlk] at hlk2
                  injection hlk2 with hlk2
                  injection hlk2 with e1 e2
                  subst e2
                  exact hfA w hwmem hwexp hwund
                · exact absurd hq0 hnq
              · exact hfB q hq hq1 w hw hwexp hwund
        · rw [if_neg hg]
          constructor
          · intro hexp hund
            push_neg at hg
            rw [mem_marksB]
            by_cases hT : site ∈ st.toExport
            · exact Or.inl hT
            · exact Or.inr (hg hexp hT)
          · intro q hq hnq w _ _ _
            exact absurd hq hnq


/-! ### Properties of the main selection loop -/

theorem marksF_consT (st : ChooseState) (site q : primitiveSite) (hq : q ∈ marksF st) :
    q ∈ marksF { st with toExport := site :: st.toExport } := by
  rw [mem_marksF] at hq ⊢
  rcases hq with hq | hq
  · exact Or.inl (List.mem_cons_of_mem site hq)
  · exact Or.inr hq

theorem marksB_consT (st : ChooseState) (site q : primitiveSite) (hq : q ∈ marksB st) :
    q ∈ marksB { st with toExport := site :: st.toExport } := by
  rw [mem_marksB] at hq ⊢
  rcases hq with hq | hq
  · exact Or.inl (List.mem_cons_of_mem site hq)
  · exact Or.inr hq

theorem foldl_markRFE_toExport_mono (m : Mapping) (fuel : Nat) (l : List primitiveSite)
    (st : ChooseState) :
    ∀ q, q ∈ st.toExport →
      q ∈ (l.foldl (fun acc s => markReachableFromExported m fuel acc s) st).toExport := by
  have := foldl_state_pres (fun acc s => markReachableFromExported m fuel acc s)
    (fun a b => ∀ q, q ∈ a.toExport → q ∈ b.toExport)
    (fun st0 q hq => hq) (fun a b c hab hbc q hq => hbc q (hab q hq))
    (fun st0 s q hq => (markRFE_mono m fuel st0 s).1 hq) l st
  exact this

theorem foldl_markRE_toExport_mono (m : Mapping) (fuel : Nat) (l : List primitiveSite)
    (st : ChooseState) :
    ∀ q, q ∈ st.toExport →
      q ∈ (l.foldl (fun acc s => markReachesExported m fuel acc s) st).toExport := by
  have := foldl_state_pres (fun acc s => markReachesExported m fuel acc s)
    (fun a b => ∀ q, q ∈ a.toExport → q ∈ b.toExport)
    (fun st0 q hq => hq) (fun a b c hab hbc q hq => hbc q (hab q hq))
    (fun st0 s q hq => (markRE_mono m fuel st0 s).1 hq) l st
  exact this

theorem foldl_markRFE_marksB_mono (m : Mapping) (fuel : Nat) (l : List primitiveSite)
    (st : ChooseState) :
    ∀ q, q ∈ marksB st →
      q ∈ marksB (l.foldl (fun acc s => markReachableFromExported m fuel acc s) st) := by
  have := foldl_state_pres (fun acc s => markReachableFromExported m fuel acc s)
    (fun a b => ∀ q, q ∈ marksB a → q ∈ marksB b)
    (fun st0 q hq => hq) (fun a b c hab hbc q hq => hbc q (hab q hq))
    (fun st0 s => (markRFE_marks_mono m fuel st0 s).2) l st
  exact this

theorem foldl_markRE_marksF_mono (m : Mapping) (fuel : Nat) (l : List primitiveSite)
    (st : ChooseState) :
    ∀ q, q ∈ marksF st →
      q ∈ marksF (l.foldl (fun acc s => markReachesExported m fuel acc s) st) := by
  have := foldl_state_pres (fun acc s => markReachesExported m fuel acc s)
    (fun a b => ∀ q, q ∈ marksF a → q ∈ marksF b)
    (fun st0 q hq => hq) (fun a b c hab hbc q hq => hbc q (hab q hq))
    (fun st0 s => (markRE_marks_mono m fuel st0 s).2) l st
  exact this

theorem chooseLoop_mono (m : Mapping) (fuel : Nat) :
    ∀ (l : List primitiveSite) (st : ChooseState),
      (∀ q, q ∈ st.toExport → q ∈ (chooseLoop m fuel l st).toExport) ∧
      (∀ q, q ∈ marksF st → q ∈ marksF (chooseLoop m fuel l st)) ∧
      (∀ q, q ∈ marksB st → q ∈ marksB (chooseLoop m fuel l st)) := by
  intro l
  induction l with
  | nil =>
    intro st
    exact ⟨fun q hq => hq, fun q hq => hq, fun q hq => hq⟩
  | cons site rest ih =>
    intro st
    rw [chooseLoop]
    by_cases hexp : site.exported = true
    · rw [if_pos hexp]
      rcases hlk : lookupVal m site with _ | v
      · dsimp only
        obtain ⟨i1, i2, i3⟩ := ih { st with toExport := site :: st.toExport }
        exact ⟨fun q hq => i1 q (List.mem_cons_of_mem site hq),
               fun q hq => i2 q (marksF_consT st site q hq),
               fun q hq => i3 q (marksB_consT st site q hq)⟩
      · rcases v with b | ⟨A, B⟩
        · dsimp only
          obtain ⟨i1, i2, i3⟩ := ih { st with toExport := site :: st.toExport }
          exact ⟨fun q hq => i1 q (List.mem_cons_of_mem site hq),
                 fun q hq => i2 q (marksF_consT st site q hq),
                 fun q hq => i3 q (marksB_consT st site q hq)⟩
        · dsimp only
          obtain ⟨i1, i2, i3⟩ := ih ((sitesOf A).foldl
            (fun acc s => markReachableFromExported m fuel acc s)
            ((sitesOf B).foldl (fun acc s => markReachesExported m fuel acc s)
              { st with toExport := site :: st.toExport }))
          refine ⟨?_, ?_, ?_⟩
          · intro q hq
            exact i1 q (foldl_markRFE_toExport_mono m fuel (sitesOf A) _ q
              (foldl_markRE_toExport_mono m fuel (sitesOf B) _ q
                (List.mem_cons_of_mem site hq)))
          · intro q hq
            exact i2 q (foldl_markRFE_marks_mono m fuel (sitesOf A) _ q
              (foldl_markRE_marksF_mono m fuel (sitesOf B) _ q (marksF_consT st site q hq)))
          · intro q hq
            exact i3 q (foldl_markRFE_marksB_mono m fuel (sitesOf A) _ q
              (foldl_markRE_marks_mono m fuel (sitesOf B) _ q (marksB_consT st site q hq)))
    · rw [if_neg hexp]
      exact ih st

theorem chooseLoop_no_exported (m : Mapping) (fuel : Nat) :
    ∀ (l : List primitiveSite) (st : ChooseState),
      (∀ s ∈ l, s.exported = false) → chooseLoop m fuel l st = st := by
  intro l
  induction l with
  | nil => intro st _; rw [chooseLoop]
  | cons site rest ih =>
    intro st hl
    rw [chooseLoop]
    have hs : site.exported = false := hl site (List.mem_cons_self site rest)
    rw [if_neg (by simp [hs])]
    exact ih st (fun s hs2 => hl s (List.mem_cons_of_mem site hs2))

theorem chooseLoop_sound (m : Mapping) (fuel : Nat) :
    ∀ (l : List primitiveSite) (st : ChooseState),
      (∀ p, p ∈ st.toExport → p.exported = false → Fwd m p ∧ Bwd m p) →
      (∀ p, p ∈ st.reachableFromExported → Fwd m p) →
      (∀ p, p ∈ st.reachesExported → Bwd m p) →
      (∀ p, p ∈ st.reachableFromExported → p ∈ st.reachesExported → False) →
      (∀ p, p ∈ (chooseLoop m fuel l st).toExport → p.exported = false →
        Fwd m p ∧ Bwd m p) ∧
      (∀ p, p ∈ (chooseLoop m fuel l st).reachableFromExported → Fwd m p) ∧
      (∀ p, p ∈ (chooseLoop m fuel l st).reachesExported → Bwd m p) ∧
      (∀ p, p ∈ (chooseLoop m fuel l st).reachableFromExported →
        p ∈ (chooseLoop m fuel l st).reachesExported → False) := by
  intro l
  induction l with
  | nil =>
    intro st h1 h2 h3 h4
    exact ⟨h1, h2, h3, h4⟩
  | cons site rest ih =>
    intro st h1 h2 h3 h4
    rw [chooseLoop]
    by_cases hexp : site.exported = true
    · rw [if_pos hexp]
      have h1' : ∀ p, p ∈ site :: st.toExport → p.exported = false →
          Fwd m p ∧ Bwd m p := by
        intro p hp hpexp
        rw [List.mem_cons] at hp
        rcases hp with rfl | hp
        · rw [hexp] at hpexp
          cases hpexp
        · exact h1 p hp hpexp
      rcases hlk : lookupVal m site with _ | v
      · dsimp only
        exact ih { st with toExport := site :: st.toExport } h1' h2 h3 h4
      · rcases v with b | ⟨A, B⟩
        · dsimp only
          exact ih { st with toExport := site :: st.toExport } h1' h2 h3 h4
        · dsimp only
          have hRES := foldl_markRE_sound m fuel
            (fun st0 s0 q0 => markRE_sound m fuel st0 s0 q0) (sitesOf B)
            { st with toExport := site :: st.toExport }
          have hRFEframe := foldl_markRE_RFE_frame m fuel (sitesOf B)
            { st with toExport := site :: st.toExport }
          have g3 : ∀ p, p ∈ ((sitesOf B).foldl
              (fun acc s => markReachesExported m fuel acc s)
              { st with toExport := site :: st.toExport }).reachesExported → Bwd m p := by
            intro p hp
            rcases (hRES p).2 hp with hp | ⟨⟨s, hsmem, hq⟩, _⟩
            · exact h3 p hp
            · exact ⟨site, A, B, hexp, hlk, s, hsmem, hq⟩
          have g1 : ∀ p, p ∈ ((sitesOf B).foldl
              (fun acc s => markReachesExported m fuel acc s)
              { st with toExport := site :: st.toExport }).toExport → p.exported = false →
              Fwd m p ∧ Bwd m p := by
            intro p hp hpexp
            rcases (hRES p).1 hp with hp | ⟨⟨s, hsmem, hq⟩, hRFE⟩
            · exact h1' p hp hpexp
            · exact ⟨h2 p hRFE, ⟨site, A, B, hexp, hlk, s, hsmem, hq⟩⟩
          have g2 : ∀ p, p ∈ ((sitesOf B).foldl
              (fun acc s => markReachesExported m fuel acc s)
              { st with toExport := site :: st.toExport }).reachableFromExported →
              Fwd m p := by
            intro p hp
            rw [hRFEframe] at hp
            exact h2 p hp
          have g4 : ∀ p, p ∈ ((sitesOf B).foldl
              (fun acc s => markReachesExported m fuel acc s)
              { st with toExport := site :: st.toExport }).reachableFromExported →
              p ∈ ((sitesOf B).foldl (fun acc s => markReachesExported m fuel acc s)
                { st with toExport := site :: st.toExport }).reachesExported → False := by
            intro p hpf hpe
            rw [hRFEframe] at hpf
            rcases (hRES p).2 hpe with hpe | ⟨_, hnot⟩
            · exact h4 p hpf hpe
            · exact hnot hpf
          have hRFS := foldl_markRFE_sound m fuel
            (fun st0 s0 q0 => markRFE_sound m fuel st0 s0 q0) (sitesOf A)
            ((sitesOf B).foldl (fun acc s => markReachesExported m fuel acc s)
              { st with toExport := site :: st.toExport })
          have hREframe := foldl_markRFE_RE_frame m fuel (sitesOf A)
            ((sitesOf B).foldl (fun acc s => markReachesExported m fuel acc s)
              { st with toExport := site :: st.toExport })
          apply ih
          · intro p hp hpexp
            rcases (hRFS p).1 hp with hp | ⟨⟨s, hsmem, hpp⟩, hRE⟩
            · exact g1 p hp hpexp
            · exact ⟨⟨site, A, B, hexp, hlk, s, hsmem, hpp⟩, g3 p hRE⟩
          · intro p hp
            rcases (hRFS p).2 hp with hp | ⟨⟨s, hsmem, hpp⟩, _⟩
            · exact g2 p hp
            · exact ⟨site, A, B, hexp, hlk, s, hsmem, hpp⟩
          · intro p hp
            rw [hREframe] at hp
            exact g3 p hp
          · intro p hpf hpe
            rw [hREframe] at hpe
            rcases (hRFS p).2 hpf with hpf | ⟨_, hnot⟩
            · exact g4 p hpf hpe
            · exact hnot hpe
    · rw [if_neg hexp]
      exact ih st h1 h2 h3 h4

theorem remF_le_len (m : Mapping) (st : ChooseState) : remF m st ≤ (keysD m).length := by
  rw [remF]
  exact List.length_filter_le _ _

theorem remB_le_len (m : Mapping) (st : ChooseState) : remB m st ≤ (keysD m).length := by
  rw [remB]
  exact List.length_filter_le _ _

theorem marksF_consT_cases (st : ChooseState) (site q : primitiveSite)
    (hq : q ∈ marksF { st with toExport := site :: st.toExport }) :
    q = site ∨ q ∈ marksF st := by
  rw [mem_marksF] at hq
  rcases hq with hq | hq
  · rw [List.mem_cons] at hq
    rcases hq with rfl | hq
    · exact Or.inl rfl
    · exact Or.inr ((mem_marksF st q).mpr (Or.inl hq))
  · exact Or.inr ((mem_marksF st q).mpr (Or.inr hq))

theorem marksB_consT_cases (st : ChooseState) (site q : primitiveSite)
    (hq : q ∈ marksB { st with toExport := site :: st.toExport }) :
    q = site ∨ q ∈ marksB st := by
  rw [mem_marksB] at hq
  rcases hq with hq | hq
  · rw [List.mem_cons] at hq
    rcases hq with rfl | hq
    · exact Or.inl rfl
    · exact Or.inr ((mem_marksB st q).mpr (Or.inl hq))
  · exact Or.inr ((mem_marksB st q).mpr (Or.inr hq))

theorem chooseLoop_closed (m : Mapping) :
    ∀ (l : List primitiveSite) (st : ChooseState),
      (∀ q, q ∈ marksF st → ∀ w, implEdge m q w → w.exported = false → isUndet m w →
        w ∈ marksF st) →
      (∀ q, q ∈ marksB st → ∀ w, impnEdge m q w → w.exported = false → isUndet m w →
        w ∈ marksB st) →
      (∀ q, q ∈ marksF (chooseLoop m (keysD m).length l st) → ∀ w, implEdge m q w →
        w.exported = false → isUndet m w →
        w ∈ marksF (chooseLoop m (keysD m).length l st)) ∧
      (∀ q, q ∈ marksB (chooseLoop m (keysD m).length l st) → ∀ w, impnEdge m q w →
        w.exported = false → isUndet m w →
        w ∈ marksB (chooseLoop m (keysD m).length l st)) := by
  intro l
  induction l with
  | nil =>
    intro st hF hB
    exact ⟨hF, hB⟩
  | cons site rest ih =>
    intro st hF hB
    rw [chooseLoop]
    by_cases hexp : site.exported = true
    · rw [if_pos hexp]
      rcases hlk : lookupVal m site with _ | v
      · dsimp only
        apply ih
        · intro q hq w hw hwexp hwund
          rcases marksF_consT_cases st site q hq with rfl | hq0
          · obtain ⟨A2, B2, hlk2, _⟩ := hw
            rw [hlk] at hlk2
            cases hlk2
          · exact marksF_consT st site w (hF q hq0 w hw hwexp hwund)
        · intro q hq w hw hwexp hwund
          rcases marksB_consT_cases st site q hq with rfl | hq0
          · obtain ⟨A2, B2, hlk2, _⟩ := hw
            rw [hlk] at hlk2
            cases hlk2
          · exact marksB_consT st site w (hB q hq0 w hw hwexp hwund)
      · rcases v with b | ⟨A, B⟩
        · dsimp only
          apply ih
          · intro q hq w hw hwexp hwund
            rcases marksF_consT_cases st site q hq with rfl | hq0
            · obtain ⟨A2, B2, hlk2, _⟩ := hw
              rw [hlk] at hlk2
              cases hlk2
            · exact marksF_consT st site w (hF q hq0 w hw hwexp hwund)
          · intro q hq w hw hwexp hwund
            rcases marksB_consT_cases st site q hq with rfl | hq0
            · obtain ⟨A2, B2, hlk2, _⟩ := hw
              rw [hlk] at hlk2
              cases hlk2
            · exact marksB_consT st site w (hB q hq0 w hw hwexp hwund)
        · dsimp only
          have hfoldFC := foldl_markRFE_complete m (keysD m).length
            (fun st0 s0 h0 => markRFE_complete m (keysD m).length st0 s0 h0)
          have hfoldBC := foldl_markRE_complete m (keysD m).length
            (fun st0 s0 h0 => markRE_complete m (keysD m).length st0 s0 h0)
          have hRES := foldl_markRE_sound m (keysD m).length
            (fun st0 s0 q0 => markRE_sound m (keysD m).length st0 s0 q0) (sitesOf B)
            { st with toExport := site :: st.toExport }
          have hRFS := foldl_markRFE_sound m (keysD m).length
            (fun st0 s0 q0 => markRFE_sound m (keysD m).length st0 s0 q0) (sitesOf A)
            ((sitesOf B).foldl (fun acc s => markReachesExported m (keysD m).length acc s)
              { st with toExport := site :: st.toExport })
          have hRFEframe := foldl_markRE_RFE_frame m (keysD m).length (sitesOf B)
            { st with toExport := site :: st.toExport }
          have hREframe := foldl_markRFE_RE_frame m (keysD m).length (sitesOf A)
            ((sitesOf B).foldl (fun acc s => markReachesExported m (keysD m).length acc s)
              { st with toExport := site :: st.toExport })
          have eqFA : ∀ q, q ∈ marksF ((sitesOf B).foldl
              (fun acc s => markReachesExported m (keysD m).length acc s)
              { st with toExport := site :: st.toExport }) →
              q ∈ marksF { st with toExport := site :: st.toExport } := by
            intro q hq
            rw [mem_marksF] at hq
            rcases hq with hq | hq
            · rcases (hRES q).1 hq with hq | ⟨_, hq⟩
              · exact (mem_marksF _ q).mpr (Or.inl hq)
              · exact (mem_marksF _ q).mpr (Or.inr hq)
            · rw [hRFEframe] at hq
              exact (mem_marksF _ q).mpr (Or.inr hq)
          have eqB2 : ∀ q, q ∈ marksB ((sitesOf A).foldl
              (fun acc s => markReachableFromExported m (keysD m).length acc s)
              ((sitesOf B).foldl (fun acc s => markReachesExported m (keysD m).length acc s)
                { st with toExport := site :: st.toExport })) →
              q ∈ marksB ((sitesOf B).foldl
                (fun acc s => markReachesExported m (keysD m).length acc s)
                { st with toExport := site :: st.toExport }) := by
            intro q hq
            rw [mem_marksB] at hq
            rcases hq with hq | hq
            · rcases (hRFS q).1 hq with hq | ⟨_, hq⟩
              · exact (mem_marksB _ q).mpr (Or.inl hq)
              · exact (mem_marksB _ q).mpr (Or.inr hq)
            · rw [hREframe] at hq
              exact (mem_marksB _ q).mpr (Or.inr hq)
          apply ih
          · intro q hq w hw hwexp hwund
            by_cases hqA : q ∈ marksF ((sitesOf B).foldl
                (fun acc s => markReachesExported m (keysD m).length acc s)
                { st with toExport := site :: st.toExport })
            · rcases marksF_consT_cases st site q (eqFA q hqA) with rfl | hq0
              · obtain ⟨A2, B2, hlk2, hwmem⟩ := hw
                rw [hlk] at hlk2
                injection hlk2 with hlk2
                injection hlk2 with e1 e2
                subst e1
                exact (hfoldFC (sitesOf A) _ (remF_le_len m _)).1 w hwmem hwexp hwund
              · exact foldl_markRFE_marks_mono m (keysD m).length (sitesOf A) _ w
                  (foldl_markRE_marksF_mono m (keysD m).length (sitesOf B) _ w
                    (marksF_consT st site w (hF q hq0 w hw hwexp hwund)))
            · exact (hfoldFC (sitesOf A) _ (remF_le_len m _)).2 q hq hqA w hw hwexp hwund
          · intro q hq w hw hwexp hwund
            have hqA := eqB2 q hq
            by_cases hq1 : q ∈ marksB { st with toExport := site :: st.toExport }
            · rcases marksB_consT_cases st site q hq1 with rfl | hq0
              · obtain ⟨A2, B2, hlk2, hwmem⟩ := hw
                rw [hlk] at hlk2
                injection hlk2 with hlk2
                injection hlk2 with e1 e2
                subst e2
                exact foldl_markRFE_marksB_mono m (keysD m).length (sitesOf A) _ w
                  ((hfoldBC (sitesOf B) _ (remB_le_len m _)).1 w hwmem hwexp hwund)
              · exact foldl_markRFE_marksB_mono m (keysD m).length (sitesOf A) _ w
                  (foldl_markRE_marks_mono m (keysD m).length (sitesOf B) _ w
                    (marksB_consT st site w (hB q hq0 w hw hwexp hwund)))
            · exact foldl_markRFE_marksB_mono m (keysD m).length (sitesOf A) _ w
                ((hfoldBC (sitesOf B) _ (remB_le_len m _)).2 q hqA hq1 w hw hwexp hwund)
    · rw [if_neg hexp]
      exact ih st hF hB

theorem chooseLoop_exported (m : Mapping) :
    ∀ (l : List primitiveSite) (st : ChooseState) (e : primitiveSite), e ∈ l →
      e.exported = true →
      e ∈ (chooseLoop m (keysD m).length l st).toExport ∧
      (∀ A B, lookupVal m e = some (.UndeterminedVal A B) →
        (∀ w, w ∈ sitesOf A → w.exported = false → isUndet m w →
          w ∈ marksF (chooseLoop m (keysD m).length l st)) ∧
        (∀ w, w ∈ sitesOf B → w.exported = false → isUndet m w →
          w ∈ marksB (chooseLoop m (keysD m).length l st))) := by
  intro l
  induction l with
  | nil =>
    intro st e he
    exact absurd he (List.not_mem_nil e)
  | cons site rest ih =>
    intro st e he hexp
    rw [List.mem_cons] at he
    rcases he with rfl | he
    · rw [chooseLoop, if_pos hexp]
      rcases hlk : lookupVal m e with _ | v
      · dsimp only
        constructor
        · exact (chooseLoop_mono m (keysD m).length rest _).1 e
            (List.mem_cons_self e st.toExport)
        · intro A B hlkAB
          cases hlkAB
      · rcases v with b | ⟨A, B⟩
        · dsimp only
          constructor
          · exact (chooseLoop_mono m (keysD m).length rest _).1 e
              (List.mem_cons_self e st.toExport)
          · intro A2 B2 hlkAB
            cases hlkAB
        · dsimp only
          have hfoldFC := foldl_markRFE_complete m (keysD m).length
            (fun st0 s0 h0 => markRFE_complete m (keysD m).length st0 s0 h0)
          have hfoldBC := foldl_markRE_complete m (keysD m).length
            (fun st0 s0 h0 => markRE_complete m (keysD m).length st0 s0 h0)
          constructor
          · exact (chooseLoop_mono m (keysD m).length rest _).1 e
              (foldl_markRFE_toExport_mono m (keysD m).length (sitesOf A) _ e
                (foldl_markRE_toExport_mono m (keysD m).length (sitesOf B) _ e
                  (List.mem_cons_self e st.toExport)))
          · intro A2 B2 hlkAB
            injection hlkAB with hlkAB
            injection hlkAB with e1 e2
            subst e1
            subst e2
            constructor
            · intro w hwmem hwexp hwund
              exact (chooseLoop_mono m (keysD m).length rest _).2.1 w
                ((hfoldFC (sitesOf A) _ (remF_le_len m _)).1 w hwmem hwexp hwund)
            · intro w hwmem hwexp hwund
              exact (chooseLoop_mono m (keysD m).length rest _).2.2 w
                (foldl_markRFE_marksB_mono m (keysD m).length (sitesOf A) _ w
                  ((hfoldBC (sitesOf B) _ (remB_le_len m _)).1 w hwmem hwexp hwund))
    · rw [chooseLoop]
      by_cases hsexp : site.exported = true
      · rw [if_pos hsexp]
        rcases hlk : lookupVal m site with _ | v
        · dsimp only
          exact ih _ e he hexp
        · rcases v with b | ⟨A, B⟩
          · dsimp only
            exact ih _ e he hexp
          · dsimp only
            exact ih _ e he hexp
      · rw [if_neg hsexp]
        exact ih st e he hexp

theorem marksF_walk (m : Mapping) (st : ChooseState)
    (hcl : ∀ q, q ∈ marksF st → ∀ w, implEdge m q w → w.exported = false → isUndet m w →
      w ∈ marksF st) :
    ∀ v p, PPath m v p → v ∈ marksF st → p ∈ marksF st := by
  intro v p hpath
  induction hpath with
  | refl hs => exact fun h => h
  | tail hp he hw ih =>
    intro hv
    exact hcl _ (ih hv) _ he hw.1 hw.2

theorem marksB_walk (m : Mapping) (st : ChooseState)
    (hcl : ∀ q, q ∈ marksB st → ∀ w, impnEdge m q w → w.exported = false → isUndet m w →
      w ∈ marksB st) :
    ∀ v p, QPath m v p → v ∈ marksB st → p ∈ marksB st := by
  intro v p hpath
  induction hpath with
  | refl hs => exact fun h => h
  | tail hp he hw ih =>
    intro hv
    exact hcl _ (ih hv) _ he hw.1 hw.2

theorem chooseSites_sound (m : Mapping) :
    ∀ p, p ∈ chooseSitesToExport m → p.exported = false → Fwd m p ∧ Bwd m p := by
  intro p hp hpexp
  rw [chooseSitesToExport] at hp
  exact (chooseLoop_sound m (keysD m).length (keysD m)
    { toExport := [], reachableFromExported := [], reachesExported := [] }
    (fun q hq => absurd hq (List.not_mem_nil q))
    (fun q hq => absurd hq (List.not_mem_nil q))
    (fun q hq => absurd hq (List.not_mem_nil q))
    (fun q hq => absurd hq (List.not_mem_nil q))).1 p hp hpexp

theorem chooseSites_exported (m : Mapping) :
    ∀ s, s ∈ keysD m → s.exported = true → s ∈ chooseSitesToExport m := by
  intro s hs hsexp
  rw [chooseSitesToExport]
  exact (chooseLoop_exported m (keysD m)
    { toExport := [], reachableFromExported := [], reachesExported := [] } s hs hsexp).1

theorem chooseSites_complete (m : Mapping) :
    ∀ p, privUndet m p → Fwd m p → Bwd m p → p ∈ chooseSitesToExport m := by
  intro p hpu hF hB
  obtain ⟨CF, CB⟩ := chooseLoop_closed m (keysD m)
    { toExport := [], reachableFromExported := [], reachesExported := [] }
    (fun q hq => absurd hq (List.not_mem_nil q))
    (fun q hq => absurd hq (List.not_mem_nil q))
  have hD := (chooseLoop_sound m (keysD m).length (keysD m)
    { toExport := [], reachableFromExported := [], reachesExported := [] }
    (fun q hq => absurd hq (List.not_mem_nil q))
    (fun q hq => absurd hq (List.not_mem_nil q))
    (fun q hq => absurd hq (List.not_mem_nil q))
    (fun q hq => absurd hq (List.not_mem_nil q))).2.2.2
  have hpF : p ∈ marksF (chooseLoop m (keysD m).length (keysD m)
      { toExport := [], reachableFromExported := [], reachesExported := [] }) := by
    obtain ⟨e, A, B, heexp, helk, v, hvA, hvp⟩ := hF
    have hekeys : e ∈ keysD m := (mem_keysD_iff m e).mpr ⟨_, helk⟩
    obtain ⟨hfA, _⟩ := (chooseLoop_exported m (keysD m)
      { toExport := [], reachableFromExported := [], reachesExported := [] } e hekeys
      heexp).2 A B helk
    have hv := (PPath_ends m v p hvp).1
    exact marksF_walk m _ CF v p hvp (hfA v hvA hv.1 hv.2)
  have hpB : p ∈ marksB (chooseLoop m (keysD m).length (keysD m)
      { toExport := [], reachableFromExported := [], reachesExported := [] }) := by
    obtain ⟨e, A, B, heexp, helk, v, hvB, hvq⟩ := hB
    have hekeys : e ∈ keysD m := (mem_keysD_iff m e).mpr ⟨_, helk⟩
    obtain ⟨_, hfB⟩ := (chooseLoop_exported m (keysD m)
      { toExport := [], reachableFromExported := [], reachesExported := [] } e hekeys
      heexp).2 A B helk
    have hv := (QPath_ends m v p hvq).1
    exact marksB_walk m _ CB v p hvq (hfB v hvB hv.1 hv.2)
  rw [chooseSitesToExport]
  rw [mem_marksF] at hpF
  rw [mem_marksB] at hpB
  rcases hpF with hpF | hpF
  · exact hpF
  · rcases hpB with hpB | hpB
    · exact hpB
    · exact absurd hpB (fun h => hD p hpF h)

/-- **C1**: Export convexity. For the site set selected by
`chooseSitesToExport` on a mapping satisfying the documented edge-symmetry
invariant of the implication graph, every intermediate site of any directed
`Implicates` path between two exported undetermined sites is selected, and
every site of the mapping whose exported bit is set is itself selected. -/
theorem export_convexity (m : Mapping) (hsym : EdgeSymm m) :
    (∀ a b p mid, a.exported = true → b.exported = true →
      isUndet m a → isUndet m b → ImplPathI m a mid b → p ∈ mid →
      p ∈ chooseSitesToExport m) ∧
    (∀ s, s ∈ keysD m → s.exported = true → s ∈ chooseSitesToExport m) := by
  constructor
  · intro a b p mid ha hb hua hub hpath hp
    obtain ⟨l1, l2, hmid, h1, h2⟩ := pathI_mem_split m a b p mid hpath hp
    have hpund : isUndet m p := pathI_start_lookup m p b l2 h2
    by_cases hpe : p.exported = true
    · obtain ⟨A, B, hlk⟩ := hpund
      exact chooseSites_exported m p ((mem_keysD_iff m p).mpr ⟨_, hlk⟩) hpe
    · have hppu : privUndet m p := ⟨by simpa using hpe, hpund⟩
      exact chooseSites_complete m p hppu
        (pathI_fwd m a p l1 h1 hppu (Or.inl ha))
        (pathI_bwd m p b l2 hsym h2 hppu hb)
  · exact chooseSites_exported m

/-- Witness for `export_convexity` on the chain
E1 (exported) ⇒ P1 (private) ⇒ P2 (private) ⇒ E2 (exported): the private
intermediate P1 is selected, and the exported endpoint E1 is selected. -/
theorem export_convexity_witness :
    (({ key := 2, deep := false, exported := false } : primitiveSite) ∈
      chooseSitesToExport
        [({ key := 1, deep := false, exported := true },
          InferredVal.UndeterminedVal
            [({ key := 2, deep := false, exported := false }, 10)] []),
         ({ key := 2, deep := false, exported := false },
          InferredVal.UndeterminedVal
            [({ key := 3, deep := false, exported := false }, 11)]
            [({ key := 1, deep := false, exported := true }, 10)]),
         ({ key := 3, deep := false, exported := false },
          InferredVal.UndeterminedVal
            [({ key := 4, deep := false, exported := true }, 12)]
            [({ key := 2, deep := false, exported := false }, 11)]),
         ({ key := 4, deep := false, exported := true },
          InferredVal.UndeterminedVal []
            [({ key := 3, deep := false, exported := false }, 12)])]) ∧
    (({ key := 1, deep := false, exported := true } : primitiveSite) ∈
      chooseSitesToExport
        [({ key := 1, deep := false, exported := true },
          InferredVal.UndeterminedVal
            [({ key := 2, deep := false, exported := false }, 10)] []),
         ({ key := 2, deep := false, exported := false },
          InferredVal.UndeterminedVal
            [({ key := 3, deep := false, exported := false }, 11)]
            [({ key := 1, deep := false, exported := true }, 10)]),
         ({ key := 3, deep := false, exported := false },
          InferredVal.UndeterminedVal
            [({ key := 4, deep := false, exported := true }, 12)]
            [({ key := 2, deep := false, exported := false }, 11)]),
         ({ key := 4, deep := false, exported := true },
          InferredVal.UndeterminedVal []
            [({ key := 3, deep := false, exported := false }, 12)])]) := by
  have h := export_convexity
    [({ key := 1, deep := false, exported := true },
      InferredVal.UndeterminedVal
        [({ key := 2, deep := false, exported := false }, 10)] []),
     ({ key := 2, deep := false, exported := false },
      InferredVal.UndeterminedVal
        [({ key := 3, deep := false, exported := false }, 11)]
        [({ key := 1, deep := false, exported := true }, 10)]),
     ({ key := 3, deep := false, exported := false },
      InferredVal.UndeterminedVal
        [({ key := 4, deep := false, exported := true }, 12)]
        [({ key := 2, deep := false, exported := false }, 11)]),
     ({ key := 4, deep := false, exported := true },
      InferredVal.UndeterminedVal []
        [({ key := 3, deep := false, exported := false }, 12)])]
    (edgeSymm_of_B _ (by decide))
  refine ⟨h.1 { key := 1, deep := false, exported := true }
      { key := 4, deep := false, exported := true }
      { key := 2, deep := false, exported := false }
      [{ key := 2, deep := false, exported := false },
       { key := 3, deep := false, exported := false }]
      (by decide) (by decide)
      ⟨[({ key := 2, deep := false, exported := false }, 10)], [], by decide⟩
      ⟨[], [({ key := 3, deep := false, exported := false }, 12)], by decide⟩
      ?_ (by decide),
    h.2 { key := 1, deep := false, exported := true } (by decide) (by decide)⟩
  exact ImplPathI.cons
    ⟨[({ key := 2, deep := false, exported := false }, 10)], [], by decide, by decide⟩
    (ImplPathI.cons
      ⟨[({ key := 3, deep := false, exported := false }, 11)],
       [({ key := 1, deep := false, exported := true }, 10)], by decide, by decide⟩
      (ImplPathI.single
        ⟨[({ key := 4, deep := false, exported := true }, 12)],
         [({ key := 2, deep := false, exported := false }, 11)], by decide, by decide⟩))

/-- **C2**: Export minimality. On a mapping satisfying the documented
edge-symmetry invariant, every private site selected by
`chooseSitesToExport` lies on some `Implicates` path between two exported
sites; and on a map whose sites are all private and undetermined, `Export`
emits no fact at all. -/
theorem export_minimality (m : Mapping) (hsym : EdgeSymm m) (i : InferredMap)
    (hpriv : ∀ s, s ∈ keysD i.mapping → s.exported = false)
    (hund : ∀ s, s ∈ keysD i.mapping → isUndet i.mapping s) :
    (∀ p, p ∈ chooseSitesToExport m → p.exported = false →
      ∃ a mid b, a.exported = true ∧ b.exported = true ∧
        ImplPathI m a mid b ∧ p ∈ mid) ∧
    (Export i).2 = none := by
  constructor
  · intro p hp hpe
    obtain ⟨hF, hB⟩ := chooseSites_sound m p hp hpe
    obtain ⟨e, A, B, heexp, helk, v, hvA, hvp⟩ := hF
    obtain ⟨e2, A2, B2, he2exp, he2lk, w, hwB, hwq⟩ := hB
    have hedge1 : implEdge m e v := ⟨A, B, helk, hvA⟩
    have hpath1 : ∃ l1, ImplPathI m e l1 p := by
      rcases PPath_to_pathI m v p hvp with rfl | ⟨l, hl⟩
      · exact ⟨[], ImplPathI.single hedge1⟩
      · exact ⟨v :: l, ImplPathI.cons hedge1 hl⟩
    have hedge2 : implEdge m w e2 := (hsym w e2).mpr ⟨A2, B2, he2lk, hwB⟩
    have hpath2 : ∃ l2, ImplPathI m p l2 e2 := by
      rcases QPath_to_pathI m w p hsym hwq with rfl | ⟨l, hl⟩
      · exact ⟨[], ImplPathI.single hedge2⟩
      · exact ⟨l ++ [w], pathI_append m p w e2 l [] hl (ImplPathI.single hedge2)⟩
    obtain ⟨l1, hp1⟩ := hpath1
    obtain ⟨l2, hp2⟩ := hpath2
    exact ⟨e, l1 ++ p :: l2, e2, heexp, he2exp,
      pathI_append m e p e2 l1 l2 hp1 hp2,
      List.mem_append.mpr (Or.inr (List.mem_cons_self p l2))⟩
  · rw [Export]
    by_cases hlen : i.mapping.length = 0
    · rw [if_pos hlen]
    · rw [if_neg hlen]
      have hsel : chooseSitesToExport i.mapping = [] := by
        rw [chooseSitesToExport]
        rw [chooseLoop_no_exported i.mapping (keysD i.mapping).length (keysD i.mapping)
          { toExport := [], reachableFromExported := [], reachesExported := [] } hpriv]
      have hfm : i.mapping.filterMap (exportEntry i (chooseSitesToExport i.mapping)) = [] := by
        rw [List.filterMap_eq_nil_iff]
        intro sv hsv
        rw [exportEntry, hsel]
        simp
      simp [hfm]

/-- Witness for `export_minimality`: the selected private site P1 of the
E1 ⇒ P1 ⇒ P2 ⇒ E2 chain lies on a path between two exported sites, and on
the pure private chain P1 ⇒ P2 ⇒ P3 `Export` emits nothing. -/
theorem export_minimality_witness :
    (∃ a mid b, a.exported = true ∧ b.exported = true ∧
      ImplPathI
        [({ key := 1, deep := false, exported := true },
          InferredVal.UndeterminedVal
            [({ key := 2, deep := false, exported := false }, 10)] []),
         ({ key := 2, deep := false, exported := false },
          InferredVal.UndeterminedVal
            [({ key := 3, deep := false, exported := false }, 11)]
            [({ key := 1, deep := false, exported := true }, 10)]),
         ({ key := 3, deep := false, exported := false },
          InferredVal.UndeterminedVal
            [({ key := 4, deep := false, exported := true }, 12)]
            [({ key := 2, deep := false, exported := false }, 11)]),
         ({ key := 4, deep := false, exported := true },
          InferredVal.UndeterminedVal []
            [({ key := 3, deep := false, exported := false }, 12)])]
        a mid b ∧
      ({ key := 2, deep := false, exported := false } : primitiveSite) ∈ mid) ∧
    (Export
      { upstreamMapping := [],
        mapping :=
          [({ key := 1, deep := false, exported := false },
            InferredVal.UndeterminedVal
              [({ key := 2, deep := false, exported := false }, 20)] []),
           ({ key := 2, deep := false, exported := false },
            InferredVal.UndeterminedVal
              [({ key := 3, deep := false, exported := false }, 21)]
              [({ key := 1, deep := false, exported := false }, 20)]),
           ({ key := 3, deep := false, exported := false },
            InferredVal.UndeterminedVal []
              [({ key := 2, deep := false, exported := false }, 21)])] }).2 = none := by
  have h := export_minimality
    [({ key := 1, deep := false, exported := true },
      InferredVal.UndeterminedVal
        [({ key := 2, deep := false, exported := false }, 10)] []),
     ({ key := 2, deep := false, exported := false },
      InferredVal.UndeterminedVal
        [({ key := 3, deep := false, exported := false }, 11)]
        [({ key := 1, deep := false, exported := true }, 10)]),
     ({ key := 3, deep := false, exported := false },
      InferredVal.UndeterminedVal
        [({ key := 4, deep := false, exported := true }, 12)]
        [({ key := 2, deep := false, exported := false }, 11)]),
     ({ key := 4, deep := false, exported := true },
      InferredVal.UndeterminedVal []
        [({ key := 3, deep := false, exported := false }, 12)])]
    (edgeSymm_of_B _ (by decide))
    { upstreamMapping := [],
      mapping :=
        [({ key := 1, deep := false, exported := false },
          InferredVal.UndeterminedVal
            [({ key := 2, deep := false, exported := false }, 20)] []),
         ({ key := 2, deep := false, exported := false },
          InferredVal.UndeterminedVal
            [({ key := 3, deep := false, exported := false }, 21)]
            [({ key := 1, deep := false, exported := false }, 20)]),
         ({ key := 3, deep := false, exported := false },
          InferredVal.UndeterminedVal []
            [({ key := 2, deep := false, exported := false }, 21)])] }
    (by
      intro s hs
      dsimp only at hs
      have hd : keysD
          [({ key := 1, deep := false, exported := false },
            InferredVal.UndeterminedVal
              [({ key := 2, deep := false, exported := false }, 20)] []),
           ({ key := 2, deep := false, exported := false },
            InferredVal.UndeterminedVal
              [({ key := 3, deep := false, exported := false }, 21)]
              [({ key := 1, deep := false, exported := false }, 20)]),
           ({ key := 3, deep := false, exported := false },
            InferredVal.UndeterminedVal []
              [({ key := 2, deep := false, exported := false }, 21)])] =
          [{ key := 1, deep := false, exported := false },
           { key := 2, deep := false, exported := false },
           { key := 3, deep := false, exported := false }] := by decide
      rw [hd] at hs
      fin_cases hs <;> decide)
    (by
      intro s hs
      dsimp only at hs
      have hd : keysD
          [({ key := 1, deep := false, exported := false },
            InferredVal.UndeterminedVal
              [({ key := 2, deep := false, exported := false }, 20)] []),
           ({ key := 2, deep := false, exported := false },
            InferredVal.UndeterminedVal
              [({ key := 3, deep := false, exported := false }, 21)]
              [({ key := 1, deep := false, exported := false }, 20)]),
           ({ key := 3, deep := false, exported := false },
            InferredVal.UndeterminedVal []
              [({ key := 2, deep := false, exported := false }, 21)])] =
          [{ key := 1, deep := false, exported := false },
           { key := 2, deep := false, exported := false },
           { key := 3, deep := false, exported := false }] := by decide
      rw [hd] at hs
      fin_cases hs
      · exact ⟨[({ key := 2, deep := false, exported := false }, 20)], [], by decide⟩
      · exact ⟨[({ key := 3, deep := false, exported := false }, 21)],
          [({ key := 1, deep := false, exported := false }, 20)], by decide⟩
      · exact ⟨[], [({ key := 2, deep := false, exported := false }, 21)], by decide⟩)
  exact ⟨h.1 { key := 2, deep := false, exported := false } (by decide) (by decide), h.2⟩
